import Mathlib

set_option maxRecDepth 8000

/-!
Verification development for the svach file-name sanitizing library.

The Go source represents strings as byte sequences; the regular-expression
stages of the pipeline operate on the UTF-8 rune decomposition of those
bytes.  We mirror this with two views:

* `Bytes` (`List Nat`, each element a byte value `< 256`) for raw input,
  for md5 hashing of the raw input, and for byte-length truncation;
* rune strings (`List Nat`, each element a Unicode code point) for every
  rewrite stage after `strings.ToValidUTF8`, which in Go always yields a
  valid UTF-8 string and hence an unambiguous rune decomposition.

Each definition is a direct translation of the correspondingly named Go
function or regular expression from the svach source.
-/

namespace Svach

/-- Raw byte strings (Go `string` as a byte sequence). -/
abbrev Bytes := List Nat

/-- Rune strings: the rune (code point) decomposition of a valid UTF-8
Go string. -/
abbrev RStr := List Nat

/-- Rune list of a Lean string literal (used for concrete test vectors). -/
def strRunes (s : String) : RStr := s.toList.map Char.toNat

/-! ## Character classifiers

These translate the precompiled regular expressions of the source:
`cntrlExp`, `invCharExp`, `rightSDExp`, `leftdotExpr`, `unicodeControl`,
`unicodeSpace`. -/

/-- POSIX `[[:cntrl:]]` as matched by Go regexp: ASCII control characters
`0x00`–`0x1F` and `0x7F`. -/
def isCntrl (c : Nat) : Bool := c ≤ 0x1F || c == 0x7F

/-- The reserved path characters of `invCharExp`:
`<`, `>`, `:`, `"`, `/`, `\`, `|`, `?`, `*`. -/
def isInvChar (c : Nat) : Bool :=
  c == 60 || c == 62 || c == 58 || c == 34 || c == 47 ||
  c == 92 || c == 124 || c == 63 || c == 42

/-- POSIX `[[:space:]]`: tab, newline, vertical tab, form feed, carriage
return, space. -/
def isSpaceChar (c : Nat) : Bool :=
  c == 9 || c == 10 || c == 11 || c == 12 || c == 13 || c == 32

/-- A character matched by `rightSDExp`, i.e. `[[:space:]]` or `.`. -/
def isSpaceDot (c : Nat) : Bool := isSpaceChar c || c == 46

/-- The dot character matched by `leftdotExpr`. -/
def isDot (c : Nat) : Bool := c == 46

/-- Unicode general category Cc (control). -/
def isCc (c : Nat) : Bool := c ≤ 0x1F || (0x7F ≤ c && c ≤ 0x9F)

/-- Unicode general category Cf (format), per the Unicode tables shipped
with Go.  Only the ASCII-disjoint contents beyond `isCc` matter to the
claims; the table is reproduced for completeness. -/
def isCf (c : Nat) : Bool :=
  c == 0xAD || (0x600 ≤ c && c ≤ 0x605) || c == 0x61C || c == 0x6DD ||
  c == 0x70F || c == 0x8E2 || c == 0x180E ||
  (0x200B ≤ c && c ≤ 0x200F) || (0x202A ≤ c && c ≤ 0x202E) ||
  (0x2060 ≤ c && c ≤ 0x2064) || (0x2066 ≤ c && c ≤ 0x206F) ||
  c == 0xFEFF || (0xFFF9 ≤ c && c ≤ 0xFFFB) ||
  c == 0x110BD || c == 0x110CD || (0x13430 ≤ c && c ≤ 0x13438) ||
  (0x1BCA0 ≤ c && c ≤ 0x1BCA3) || (0x1D173 ≤ c && c ≤ 0x1D17A) ||
  c == 0xE0001 || (0xE0020 ≤ c && c ≤ 0xE007F)

/-- `\p{Cc}|\p{Cf}`, the `unicodeControl` pattern. -/
def isUniCtrl (c : Nat) : Bool := isCc c || isCf c

/-- `\p{Zl}|\p{Zp}|\p{Zs}`, the `unicodeSpace` pattern.  Zl = U+2028,
Zp = U+2029, Zs per the Unicode tables shipped with Go. -/
def isUniSpace (c : Nat) : Bool :=
  c == 0x20 || c == 0xA0 || c == 0x1680 ||
  (0x2000 ≤ c && c ≤ 0x200A) || c == 0x202F || c == 0x205F ||
  c == 0x3000 || c == 0x2028 || c == 0x2029

/-! ## UTF-8 encoding and `strings.ToValidUTF8` -/

/-- Number of bytes in the UTF-8 encoding of code point `c`. -/
def utf8Len (c : Nat) : Nat :=
  if c < 0x80 then 1 else if c < 0x800 then 2 else
  if c < 0x10000 then 3 else 4

/-- UTF-8 encoding of one code point.  Written with `/`, `%`, `+` instead
of the bitwise shift/mask formulation of Go's `utf8.EncodeRune`; the two
are numerically identical on every scalar value.  (Like all uses in this
development, it is only ever applied to valid scalar values.) -/
def utf8EncodeChar (c : Nat) : List Nat :=
  if c < 0x80 then [c]
  else if c < 0x800 then [0xC0 + c / 0x40, 0x80 + c % 0x40]
  else if c < 0x10000 then
    [0xE0 + c / 0x1000, 0x80 + (c / 0x40) % 0x40, 0x80 + c % 0x40]
  else
    [0xF0 + c / 0x40000, 0x80 + (c / 0x1000) % 0x40,
     0x80 + (c / 0x40) % 0x40, 0x80 + c % 0x40]

/-- UTF-8 encoding of a rune string. -/
def utf8Encode (s : RStr) : Bytes := s.flatMap utf8EncodeChar

/-- Byte length of a rune string (Go `len` of the corresponding string). -/
def byteLen (s : RStr) : Nat := (s.map utf8Len).sum

/-- Byte string of a Lean string literal. -/
def strBytes (s : String) : Bytes := utf8Encode (strRunes s)

/-- UTF-8 continuation byte (`0x80`–`0xBF`). -/
def contByte (b : Nat) : Bool := 0x80 ≤ b && b ≤ 0xBF

/-- Admissible second byte of a three-byte sequence led by `b0`, following
the acceptance ranges of Go's `unicode/utf8` (excludes overlong encodings
and surrogates). -/
def snd3Ok (b0 b1 : Nat) : Bool :=
  if b0 = 0xE0 then 0xA0 ≤ b1 && b1 ≤ 0xBF
  else if b0 = 0xED then 0x80 ≤ b1 && b1 ≤ 0x9F
  else contByte b1

/-- Admissible second byte of a four-byte sequence led by `b0` (excludes
overlong encodings and values above U+10FFFF). -/
def snd4Ok (b0 b1 : Nat) : Bool :=
  if b0 = 0xF0 then 0x90 ≤ b1 && b1 ≤ 0xBF
  else if b0 = 0xF4 then 0x80 ≤ b1 && b1 ≤ 0x8F
  else contByte b1

/-- Two-byte decode step (`b0` already known to lie in `0xC2`–`0xDF`). -/
def decodeRune2 (b0 : Nat) : Bytes → Option (Nat × Nat)
  | b1 :: _ =>
    if contByte b1 then some ((b0 - 0xC0) * 0x40 + (b1 - 0x80), 2)
    else none
  | [] => none

/-- Three-byte decode step (`b0` in `0xE0`–`0xEF`). -/
def decodeRune3 (b0 : Nat) : Bytes → Option (Nat × Nat)
  | b1 :: b2 :: _ =>
    if snd3Ok b0 b1 && contByte b2 then
      some ((b0 - 0xE0) * 0x1000 + (b1 - 0x80) * 0x40 + (b2 - 0x80), 3)
    else none
  | _ => none

/-- Four-byte decode step (`b0` in `0xF0`–`0xF4`). -/
def decodeRune4 (b0 : Nat) : Bytes → Option (Nat × Nat)
  | b1 :: b2 :: b3 :: _ =>
    if snd4Ok b0 b1 && contByte b2 && contByte b3 then
      some ((b0 - 0xF0) * 0x40000 + (b1 - 0x80) * 0x1000 +
              (b2 - 0x80) * 0x40 + (b3 - 0x80), 4)
    else none
  | _ => none

/-- Go's `utf8.DecodeRune` on the front of a byte list: `some (r, size)`
when the leading bytes form a valid encoding of the scalar value `r`
taking `size` bytes, `none` when the leading byte starts no valid
encoding (Go then reports `RuneError` with size 1).  Decoded values are
written with `/`, `%`, `*`, `+`; they agree with Go's shift/mask
arithmetic on all accepted byte ranges. -/
def decodeRune : Bytes → Option (Nat × Nat)
  | [] => none
  | b0 :: rest =>
    if b0 < 0x80 then some (b0, 1)
    else if 0xC2 ≤ b0 && b0 ≤ 0xDF then decodeRune2 b0 rest
    else if 0xE0 ≤ b0 && b0 ≤ 0xEF then decodeRune3 b0 rest
    else if 0xF0 ≤ b0 && b0 ≤ 0xF4 then decodeRune4 b0 rest
    else none

/-- Core loop of `strings.ToValidUTF8`, producing the rune decomposition
of the result.  Valid runes are copied; every maximal run of invalid
bytes is replaced by one copy of the replacement rune string `R` (the
`inv` flag records being inside such a run), exactly as in the Go
implementation.  Every step consumes at least one byte, so the `fuel`
argument — instantiated with the byte count by `toValidUTF8Aux` below —
is an upper bound on the number of steps; it makes the recursion
structural (hence computable by the kernel) without changing the
function computed (`toValidUTF8Go_congr`, `toValidUTF8Aux_cons`). -/
def toValidUTF8Go (R : RStr) : Nat → Bool → Bytes → RStr
  | 0, _, _ => []
  | _ + 1, _, [] => []
  | fuel + 1, inv, b0 :: rest =>
    match decodeRune (b0 :: rest) with
    | some (r, size) => r :: toValidUTF8Go R fuel false (rest.drop (size - 1))
    | none => (if inv then [] else R) ++ toValidUTF8Go R fuel true rest

/-- The `strings.ToValidUTF8` loop from a given state. -/
def toValidUTF8Aux (R : RStr) (inv : Bool) (bs : Bytes) : RStr :=
  toValidUTF8Go R bs.length inv bs

/-- `strings.ToValidUTF8(s, replacement)`: byte input, rune-string output
(the result is always valid UTF-8 when the replacement is, so the rune
view is faithful). -/
def toValidUTF8 (s : Bytes) (R : RStr) : RStr := toValidUTF8Aux R false s

/-! ## `html.UnescapeString`

Model of Go's `html.UnescapeString` restricted to the five basic XML
entities, each requiring its terminating semicolon.  Go's full table has
over two thousand named entities plus numeric references; no claim in
this development depends on any entry beyond these (the universal claims
hold for an arbitrary decode table because decoding runs before the
control/reserved-character removal stages, and no concrete test vector
contains an entity outside this set).  An unrecognized `&` is copied
unchanged and scanning resumes after it, exactly as in Go. -/
def unescapeGo : Nat → RStr → RStr
  | 0, _ => []
  | _ + 1, [] => []
  | fuel + 1, c :: rest =>
    if c == 38 then
      if (strRunes "amp;").isPrefixOf rest then
        38 :: unescapeGo fuel (rest.drop 4)
      else if (strRunes "lt;").isPrefixOf rest then
        60 :: unescapeGo fuel (rest.drop 3)
      else if (strRunes "gt;").isPrefixOf rest then
        62 :: unescapeGo fuel (rest.drop 3)
      else if (strRunes "quot;").isPrefixOf rest then
        34 :: unescapeGo fuel (rest.drop 5)
      else if (strRunes "apos;").isPrefixOf rest then
        39 :: unescapeGo fuel (rest.drop 5)
      else 38 :: unescapeGo fuel rest
    else c :: unescapeGo fuel rest

/-- `html.UnescapeString` (each step consumes at least one rune; the fuel
equals the rune count, see `unescapeGo_congr` and `unescapeString_cons`). -/
def unescapeString (s : RStr) : RStr := unescapeGo s.length s

/-! ## Rewrite stages

One function per `ReplaceAllString` application in the source, each a
direct transcription of the corresponding regular expression's matching
behaviour (leftmost match, greedy repetition).

`ReplaceAllString` does not insert the replacement literally: the
replacement is a template in which `$` is special (`regexp`'s
`Regexp.expand`).  `$$` writes a literal `$`; `$name` or a braced
`${name}` is a reference — a numeric one writes the text of that
capture group (an out-of-range number writes nothing), a non-numeric one
writes the text of the group of that name (no pattern used with
`replaceStr` here names a group, so nothing); a `$` that starts no
well-formed reference is written as raw text.  All four patterns the
package applies with `replaceStr` as the template have no capture
groups, so the match indices hold group 0 — the whole match — only, and
a reference writes the matched text for number 0 and nothing otherwise.
Go accepts any Unicode letter or digit inside a reference name
(`unicode.IsLetter`/`IsDigit`); this model restricts name characters to
ASCII letters, digits and underscore.  The difference affects only
templates in which `$` is directly followed by a non-ASCII letter or
digit, and no theorem below depends on such a template. -/

/-- A character Go's `extract` accepts inside a reference name (ASCII
fragment of letter/digit/underscore, see the section comment). -/
def isTplNameChar (c : Nat) : Bool :=
  (48 ≤ c && c ≤ 57) || (65 ≤ c && c ≤ 90) || (97 ≤ c && c ≤ 122) ||
    c == 95

/-- The number-parsing loop of Go's `extract`: digits accumulate into
`num`; a non-digit, or an accumulator already at `1e8`, yields Go's
`num = -1` (here `none`: the name is not a group number). -/
def tplNum : RStr → Nat → Option Nat
  | [], num => some num
  | c :: rest, num =>
    if c < 48 || 57 < c || 100000000 ≤ num then none
    else tplNum rest (num * 10 + (c - 48))

/-- The reference a parsed name denotes: its group number, or `none` for
a non-numeric name (Go looks such a name up among the pattern's named
groups, and no pattern used with `replaceStr` has any, so it writes
nothing).  A multi-digit name with a leading zero is not a number (Go
disallows leading zeros). -/
def tplRef (name : RStr) : Option Nat :=
  match tplNum name 0 with
  | some n =>
    if name.head? == some 48 && decide (1 < name.length) then none
    else some n
  | none => none

/-- Go's `extract` on the text after a `$`: a braced name or a maximal
run of name characters; `none` when malformed (an empty name, or a brace
never closed), in which case the `$` is written as raw text. -/
def tplExtract : RStr → Option (Option Nat × RStr)
  | [] => none
  | c :: rest =>
    if c == 123 then
      if (rest.takeWhile isTplNameChar).isEmpty then none
      else
        match rest.dropWhile isTplNameChar with
        | 125 :: rest2 => some (tplRef (rest.takeWhile isTplNameChar), rest2)
        | _ => none
    else
      if ((c :: rest).takeWhile isTplNameChar).isEmpty then none
      else
        some (tplRef ((c :: rest).takeWhile isTplNameChar),
          (c :: rest).dropWhile isTplNameChar)

/-- The scanning loop of Go's `expand` over the template, for a pattern
without capture groups: plain text copies through, `$$` writes `$`, a
reference writes the matched text for group number 0 and nothing
otherwise, and a malformed `$` copies through as raw text.  Each step
consumes at least one template character, so fuel equal to the template
length suffices. -/
def tplExpandGo (matched : RStr) : Nat → RStr → RStr
  | 0, _ => []
  | _ + 1, [] => []
  | fuel + 1, c :: rest =>
    if c == 36 then
      match rest with
      | 36 :: rest2 => 36 :: tplExpandGo matched fuel rest2
      | _ =>
        match tplExtract rest with
        | none => 36 :: tplExpandGo matched fuel rest
        | some (ref, rest2) =>
          (if ref == some 0 then matched else []) ++
            tplExpandGo matched fuel rest2
    else c :: tplExpandGo matched fuel rest

/-- `regexp`'s `expand` of the replacement template against one match of
a pattern without capture groups: what one `ReplaceAllString` match
writes in place of the matched text. -/
def expandTemplate (tpl matched : RStr) : RStr :=
  tplExpandGo matched tpl.length tpl

/-- `cntrlExp.ReplaceAllString(s, R)`: the pattern `[[:cntrl:]]` matches
single characters, so every control character is replaced by the
template `R` expanded against that one-character match (consecutive
control characters each produce one expansion). -/
def cntrlReplaceAll (R : RStr) (s : RStr) : RStr :=
  s.flatMap (fun c => if isCntrl c then expandTemplate R [c] else [c])

/-- `unicodeControl.ReplaceAllString(s, R)`: `\p{Cc}|\p{Cf}` matches
single characters, each replaced by the template `R` expanded against
that one-character match. -/
def unicodeControlReplaceAll (R : RStr) (s : RStr) : RStr :=
  s.flatMap (fun c => if isUniCtrl c then expandTemplate R [c] else [c])

/-- `unicodeSpace.ReplaceAllString(s, " ")`: `\p{Zl}|\p{Zp}|\p{Zs}`
matches single characters, each replaced by one plain space. -/
def unicodeSpaceReplaceAll (s : RStr) : RStr :=
  s.flatMap (fun c => if isUniSpace c then [32] else [c])

/-- `invCharExp.ReplaceAllString(s, R)`: the pattern
`[<>:"/\\|\?\*]+` matches maximal runs of reserved path characters
(greedy `+`, non-overlapping leftmost matches), each run replaced by the
template `R` expanded against that run. -/
def invCharGo (R : RStr) : Nat → RStr → RStr
  | 0, _ => []
  | _ + 1, [] => []
  | fuel + 1, c :: rest =>
    if isInvChar c then
      expandTemplate R (c :: rest.takeWhile isInvChar) ++
        invCharGo R fuel (rest.dropWhile isInvChar)
    else c :: invCharGo R fuel rest

/-- `invCharExp.ReplaceAllString(s, R)` driver (fuel = rune count, see
`invCharGo_congr` and `invCharReplaceAll_cons`). -/
def invCharReplaceAll (R : RStr) (s : RStr) : RStr := invCharGo R s.length s

/-- The maximal trailing run of `[[:space:]]`-or-`.` characters removed:
`rightSDExp`'s match region is everything from the first position where
the space/dot run extends to the end of the string. -/
def trimRightSD (s : RStr) : RStr :=
  (s.reverse.dropWhile isSpaceDot).reverse

/-- `rightSDExp.ReplaceAllString(s, R)`: the anchored pattern
`(?s:[[:space:]]|\.)+$` has at most one match — the maximal trailing
space/dot run — which is replaced by the template `R` expanded against
that run; without a match the string is returned unchanged. -/
def rightSDReplaceAll (R : RStr) (s : RStr) : RStr :=
  if trimRightSD s = s then s
  else trimRightSD s ++ expandTemplate R (s.reverse.takeWhile isSpaceDot).reverse

/-- `leftdotExpr.ReplaceAllString(s, ".")`: the anchored pattern `^\.+`
has at most one match — the maximal leading run of dots — which is
replaced by a single dot. -/
def leftdotReplaceAll (s : RStr) : RStr :=
  match s with
  | c :: rest => if isDot c then 46 :: rest.dropWhile isDot else c :: rest
  | [] => []

/-! ## `replaceAllStringSubmatch` applied to `cleanExpr`

`cleanExpr` is built by `repeatedCharsExp` from the six alternatives
`[[:space:]] _ - \+ \. !`, i.e. the pattern
`([[:space:]]{2,})|(_{2,})|(-{2,})|(\+{2,})|(\.{2,})|(!{2,})`, and
`replaceAllStringSubmatch` replaces the text of capture group `i` by
`cleanReplaceWith[i]`, so each maximal run of two-or-more characters of
one class collapses to that class's canonical character.  The six
classes are pairwise disjoint, so a scan collapsing each maximal
same-class run of length ≥ 2 reproduces the leftmost-greedy matches. -/

/-- The separator class of a character under `cleanExpr`: group index
1–6, or `none` for characters outside every class. -/
def sepClass (c : Nat) : Option Nat :=
  if isSpaceChar c then some 1
  else if c == 95 then some 2
  else if c == 45 then some 3
  else if c == 43 then some 4
  else if c == 46 then some 5
  else if c == 33 then some 6
  else none

/-- `cleanReplaceWith`: the canonical character written for capture group
`k` (`" "`, `"_"`, `"-"`, `"+"`, `"."`, `"!"`). -/
def cleanReplaceWith (k : Nat) : Nat :=
  if k == 1 then 32 else if k == 2 then 95 else if k == 3 then 45
  else if k == 4 then 43 else if k == 5 then 46 else 33

/-- `replaceAllStringSubmatch(cleanExpr, s, cleanReplaceWith)`: collapse
every maximal run of two-or-more same-class separator characters to the
class's canonical character. -/
def collapseSepsGo : Nat → RStr → RStr
  | 0, _ => []
  | _ + 1, [] => []
  | fuel + 1, c :: rest =>
    match sepClass c with
    | none => c :: collapseSepsGo fuel rest
    | some k =>
      if (rest.dropWhile (fun d => sepClass d == some k)).length ==
          rest.length then
        c :: collapseSepsGo fuel rest
      else
        cleanReplaceWith k ::
          collapseSepsGo fuel (rest.dropWhile (fun d => sepClass d == some k))

/-- `replaceAllStringSubmatch(cleanExpr, s, cleanReplaceWith)` driver
(fuel = rune count, see `collapseSepsGo_congr` and `collapseSeps_cons`). -/
def collapseSeps (s : RStr) : RStr := collapseSepsGo s.length s

/-! ## `crypto/md5` and the `%x` rendering

A direct implementation of MD5 (RFC 1321) on byte lists, as used by
`fmt.Sprintf("%x", md5.Sum([]byte(fileName)))` for the fallback name.
All word arithmetic is `Nat` reduced modulo `2^32`. -/

/-- The 64 MD5 sine-derived constants `K[i] = floor(abs(sin(i+1)) * 2^32)`. -/
def md5K : List Nat :=
  [0xd76aa478, 0xe8c7b756, 0x242070db, 0xc1bdceee,
   0xf57c0faf, 0x4787c62a, 0xa8304613, 0xfd469501,
   0x698098d8, 0x8b44f7af, 0xffff5bb1, 0x895cd7be,
   0x6b901122, 0xfd987193, 0xa679438e, 0x49b40821,
   0xf61e2562, 0xc040b340, 0x265e5a51, 0xe9b6c7aa,
   0xd62f105d, 0x02441453, 0xd8a1e681, 0xe7d3fbc8,
   0x21e1cde6, 0xc33707d6, 0xf4d50d87, 0x455a14ed,
   0xa9e3e905, 0xfcefa3f8, 0x676f02d9, 0x8d2a4c8a,
   0xfffa3942, 0x8771f681, 0x6d9d6122, 0xfde5380c,
   0xa4beea44, 0x4bdecfa9, 0xf6bb4b60, 0xbebfbc70,
   0x289b7ec6, 0xeaa127fa, 0xd4ef3085, 0x04881d05,
   0xd9d4d039, 0xe6db99e5, 0x1fa27cf8, 0xc4ac5665,
   0xf4292244, 0x432aff97, 0xab9423a7, 0xfc93a039,
   0x655b59c3, 0x8f0ccc92, 0xffeff47d, 0x85845dd1,
   0x6fa87e4f, 0xfe2ce6e0, 0xa3014314, 0x4e0811a1,
   0xf7537e82, 0xbd3af235, 0x2ad7d2bb, 0xeb86d391]

/-- The per-round left-rotation amounts. -/
def md5S (i : Nat) : Nat :=
  let block := if i < 16 then [7, 12, 17, 22]
    else if i < 32 then [5, 9, 14, 20]
    else if i < 48 then [4, 11, 16, 23]
    else [6, 10, 15, 21]
  block.getD (i % 4) 0

/-- 32-bit left rotation. -/
def rotl32 (x r : Nat) : Nat :=
  ((x <<< r) + (x >>> (32 - r))) % 4294967296

/-- The round mixing function (F, G, H, I by quarter). -/
def md5Mix (i b c d : Nat) : Nat :=
  if i < 16 then (b &&& c) ||| ((0xFFFFFFFF ^^^ b) &&& d)
  else if i < 32 then (d &&& b) ||| ((0xFFFFFFFF ^^^ d) &&& c)
  else if i < 48 then b ^^^ c ^^^ d
  else c ^^^ (b ||| (0xFFFFFFFF ^^^ d))

/-- The message-word index used in round `i`. -/
def md5G (i : Nat) : Nat :=
  if i < 16 then i
  else if i < 32 then (5 * i + 1) % 16
  else if i < 48 then (3 * i + 5) % 16
  else (7 * i) % 16

/-- The 16 little-endian 32-bit words of one 64-byte chunk. -/
def md5Words (chunk : Bytes) : List Nat :=
  (List.range 16).map fun j =>
    chunk.getD (4 * j) 0 + chunk.getD (4 * j + 1) 0 * 0x100 +
      chunk.getD (4 * j + 2) 0 * 0x10000 + chunk.getD (4 * j + 3) 0 * 0x1000000

/-- One MD5 round step on the state `(a, b, c, d)`. -/
def md5Step (M : List Nat) (st : Nat × Nat × Nat × Nat) (i : Nat) :
    Nat × Nat × Nat × Nat :=
  let (a, b, c, d) := st
  let f := (md5Mix i b c d + a + md5K.getD i 0 + M.getD (md5G i) 0) % 4294967296
  (d, (b + rotl32 f (md5S i)) % 4294967296, b, c)

/-- Process one 64-byte chunk. -/
def md5Chunk (st : Nat × Nat × Nat × Nat) (chunk : Bytes) :
    Nat × Nat × Nat × Nat :=
  match st, (List.range 64).foldl (md5Step (md5Words chunk)) st with
  | (a0, b0, c0, d0), (a, b, c, d) =>
    ((a0 + a) % 4294967296, (b0 + b) % 4294967296,
     (c0 + c) % 4294967296, (d0 + d) % 4294967296)

/-- MD5 padding: a `0x80` byte, zeros to 56 mod 64, then the bit length
as a little-endian 64-bit value. -/
def md5Pad (msg : Bytes) : Bytes :=
  msg ++ 0x80 :: List.replicate ((119 - msg.length % 64) % 64) 0 ++
    (List.range 8).map fun j => (8 * msg.length) / (256 ^ j) % 256

def chunks64Go : Nat → Bytes → List Bytes
  | 0, _ => []
  | _ + 1, [] => []
  | fuel + 1, b :: rest =>
    (b :: rest).take 64 :: chunks64Go fuel ((b :: rest).drop 64)

/-- Split into 64-byte chunks (fuel = byte count; every step consumes at
least one byte). -/
def chunks64 (bs : Bytes) : List Bytes := chunks64Go bs.length bs

/-- `md5.Sum`: the 16 digest bytes. -/
def md5Sum (msg : Bytes) : Bytes :=
  match (chunks64 (md5Pad msg)).foldl md5Chunk
      (0x67452301, 0xefcdab89, 0x98badcfe, 0x10325476) with
  | (a, b, c, d) =>
    [a, b, c, d].flatMap fun w =>
      (List.range 4).map fun j => w / (256 ^ j) % 256

/-- Lowercase hexadecimal digit. -/
def hexDigit (n : Nat) : Nat := if n < 10 then 48 + n else 87 + n

/-- `fmt.Sprintf("%x", md5.Sum(msg))`: the 32 lowercase hex characters of
the digest, as a rune string. -/
def md5Hex (msg : Bytes) : RStr :=
  (md5Sum msg).flatMap fun b => [hexDigit (b / 16), hexDigit (b % 16)]

/-! ## Validator, truncator and fallback (`validName`, `valid`) -/

/-- ASCII lowercasing.  The source uses `strings.ToLower` (full Unicode
simple lowercase); within `valid`'s comparisons the two coincide: a name
whose byte length is at most 4 can only compare equal to one of the pure
ASCII reserved names when all of its runes already lower-case inside
ASCII, and the only runes whose Unicode simple lowercase is an ASCII
letter occurring in the tables are the ASCII capitals themselves. -/
def asciiLower (s : RStr) : RStr :=
  s.map fun c => if 65 ≤ c ∧ c ≤ 90 then c + 32 else c

/-- `invalidNamesMap`, keyed by byte length. -/
def invalidNamesMap (n : Nat) : List RStr :=
  if n == 1 then [strRunes "."]
  else if n == 2 then [strRunes ".."]
  else if n == 3 then
    [strRunes "con", strRunes "prn", strRunes "aux", strRunes "nul"]
  else if n == 4 then
    [strRunes "com1", strRunes "com2", strRunes "com3", strRunes "com4",
     strRunes "com5", strRunes "com6", strRunes "com7", strRunes "com8",
     strRunes "com9", strRunes "lpt1", strRunes "lpt2", strRunes "lpt3",
     strRunes "lpt4", strRunes "lpt5", strRunes "lpt6", strRunes "lpt7",
     strRunes "lpt8", strRunes "lpt9"]
  else []

/-- `valid(name)`: reject the empty string and, for byte lengths below 5,
any case-insensitive match with a reserved name of that length. -/
def valid (s : RStr) : Bool :=
  if s.isEmpty then false
  else if byteLen s < 5 then
    !(invalidNamesMap (byteLen s)).any fun invName =>
      asciiLower s == invName
  else true

/-- The truncation `strings.ToValidUTF8(intrStr[:maxLen], "")` in
`validName`: cut the byte encoding after `maxLen` bytes, then drop any
trailing bytes that are not a complete encoding unit. -/
def truncate (s : RStr) (maxLen : Nat) : RStr :=
  toValidUTF8 ((utf8Encode s).take maxLen) []

/-- `validName(fileName, intrStr, replaceStr, maxLen)`: accept the
intermediate string (byte-capped at `maxLen`) unless it equals the
replacement, is empty, or is reserved — in which case the md5 hex digest
of the original input bytes is returned. -/
def validName (fileName : Bytes) (intrStr R : RStr) (maxLen : Nat) : RStr :=
  if intrStr ≠ R ∧ intrStr ≠ [] then
    if valid intrStr then
      if byteLen intrStr > maxLen then truncate intrStr maxLen
      else intrStr
    else md5Hex fileName
  else md5Hex fileName

/-! ## `name` -/

/-- The rewrite pipeline of `name` before validation. -/
def namePipeline (fileName : Bytes) (R : RStr) : RStr :=
  leftdotReplaceAll (rightSDReplaceAll R (invCharReplaceAll R
    (cntrlReplaceAll R (unescapeString (toValidUTF8 fileName R)))))

/-- `name(fileName, replaceStr, maxLen)`. -/
def name (fileName : Bytes) (R : RStr) (maxLen : Nat) : RStr :=
  validName fileName (namePipeline fileName R) R maxLen

/-! ## `clean`

`clean` first applies the entity/character stages, then repeats the body
of its `for` loop until one full iteration leaves the string unchanged.
The Go loop has no intrinsic bound — it runs until it reaches a fixed
point, and for some constructible replacement strings it never does — so
it is embedded as iteration of the loop body a given number of times
(`cleanIter`).  Whenever the loop does stabilize within `n` iterations,
`cleanIter R n` equals the loop's result (iterating past a fixed point
changes nothing), so `cleanWith n` below equals Go's `clean` for every
sufficiently large `n`; for the default empty replacement a sufficient
`n` is proved below and used by `clean`. -/

/-- Core of `replaceExpr.ReplaceAllString(s, R)` for `replaceExpr`
compiled from `"(" + replaceStr + "){2,}"`.  A match starts wherever two
consecutive literal copies of `R` begin (`inRun = false` requires
`R ++ R` as prefix); greedily all further copies are consumed
(`inRun = true`), the whole run being replaced by the single copy written
on entry.  This is the behaviour of the dynamically built pattern when
`replaceStr` contains no regular-expression metacharacters; `validOptStr`
does not exclude metacharacters, and for such replacement strings
`regexp.MustCompile` may panic or match differently — claims touching
this stage are settled for literal replacement strings. -/
def collapseReplGo (R : RStr) : Nat → Bool → RStr → RStr
  | 0, _, _ => []
  | _ + 1, _, [] => []
  | fuel + 1, inRun, c :: rest =>
    if (R.isPrefixOf (c :: rest) && !R.isEmpty &&
        (inRun || R.isPrefixOf ((c :: rest).drop R.length))) = true then
      (if inRun then [] else R) ++
        collapseReplGo R fuel true ((c :: rest).drop R.length)
    else c :: collapseReplGo R fuel false rest

/-- The run-collapsing loop from a given state (fuel = rune count, see
`collapseReplGo_congr` and `collapseReplAux_cons`). -/
def collapseReplAux (R : RStr) (inRun : Bool) (s : RStr) : RStr :=
  collapseReplGo R s.length inRun s

/-- `replaceExpr.ReplaceAllString(s, R)`: collapse every maximal run of
two or more consecutive literal copies of `R` to one copy. -/
def collapseRepl (R : RStr) (s : RStr) : RStr := collapseReplAux R false s

/-- The stages of `clean` before the `for` loop (for a non-empty
coercion result): entity decoding, Unicode control removal, Unicode
space normalization, reserved-character removal. -/
def cleanPre (fileName : Bytes) (R : RStr) : RStr :=
  let intrStr := toValidUTF8 fileName R
  if intrStr = [] then []
  else
    invCharReplaceAll R (unicodeSpaceReplaceAll
      (unicodeControlReplaceAll R (unescapeString intrStr)))

/-- One iteration of `clean`'s `for` loop: repeated-separator collapse,
repeated-replacement collapse (skipped when `replaceStr` is empty, where
the source leaves `replaceExpr` nil), right space/dot trim, left dot
collapse. -/
def cleanBody (R : RStr) (s : RStr) : RStr :=
  let s1 := collapseSeps s
  let s2 := if R.isEmpty then s1 else collapseRepl R s1
  leftdotReplaceAll (rightSDReplaceAll R s2)

/-- `n` iterations of `clean`'s loop body.  Go's loop exits at the first
fixed point; since iterating past a fixed point changes nothing, this
equals the loop's result for every `n` at least the convergence index
(when one exists — see the termination analysis below). -/
def cleanIter (R : RStr) : Nat → RStr → RStr
  | 0, s => s
  | n + 1, s => cleanIter R n (cleanBody R s)

/-- `clean(fileName, replaceStr, maxLen)` with the loop unrolled `fuel`
times.  For every `fuel` at least the loop's convergence index this is
exactly the Go function. -/
def cleanWith (fileName : Bytes) (R : RStr) (maxLen fuel : Nat) : RStr :=
  let intrStr := cleanPre fileName R
  let final := if intrStr = [] then [] else cleanIter R fuel intrStr
  validName fileName final R maxLen

/-- `clean` for the default configuration (`replaceStr = ""`), with fuel
`length + 1`, proved sufficient below (each changing iteration of the
loop body strictly shortens the string when the replacement is empty). -/
def clean (fileName : Bytes) (maxLen : Nat) : RStr :=
  cleanWith fileName [] maxLen ((cleanPre fileName []).length + 1)

/-! ## Construction (`New`, `NewWithOpts`, `validOptStr`) -/

/-- The `Svach` object: a replacement string and a maximum length. -/
structure SvachObj where
  replaceStr : RStr
  maxLen : Nat
deriving DecidableEq, Repr

/-- The three construction errors `ErrCntrl`, `ErrInval`, `ErrLen`. -/
inductive SvachErr where
  | ErrCntrl
  | ErrInval
  | ErrLen
deriving DecidableEq, Repr

/-- `iMaxLen`, the default maximum length. -/
def iMaxLen : Nat := 240

/-- `New()`: the default object. -/
def New : SvachObj := ⟨[], iMaxLen⟩

/-- `validOptStr(s)`: `ErrCntrl` when `cntrlExp` matches (some control
character occurs), else `ErrInval` when `invCharExp` matches or the
string contains a dot. -/
def validOptStr (s : RStr) : Option SvachErr :=
  if s.any isCntrl then some .ErrCntrl
  else if s.any isInvChar || s.any isDot then some .ErrInval
  else none

/-- `NewWithOpts(replaceStr, maxLen)`: the constructed object together
with the configuration error, if any; on error the returned object is
the default one. -/
def NewWithOpts (replaceStr : RStr) (maxLen : Nat) :
    SvachObj × Option SvachErr :=
  match validOptStr replaceStr with
  | some e => (⟨[], iMaxLen⟩, some e)
  | none =>
    if maxLen > 255 then (⟨[], iMaxLen⟩, some .ErrLen)
    else (⟨replaceStr, maxLen⟩, none)

/-- `(s *Svach) Name`. -/
def SvachObj.Name (s : SvachObj) (fileName : Bytes) : RStr :=
  name fileName s.replaceStr s.maxLen

/-- Valid Unicode scalar values — the possible runes of a Go string. -/
def ValidScalar (c : Nat) : Prop :=
  c < 0xD800 ∨ (0xDFFF < c ∧ c < 0x110000)

/-- The final rewrite result of `clean` (default configuration) before
validation: the preprocessed string run through the loop to its fixed
point (fuel `length + 1` suffices for the empty replacement, as proved
below). -/
def cleanFinal (fileName : Bytes) : RStr :=
  let intrStr := cleanPre fileName []
  if intrStr = [] then []
  else cleanIter [] ((cleanPre fileName []).length + 1) intrStr

/-- Whether a rune string ends in a `[[:space:]]`-or-dot character. -/
def endsSpaceDot (s : RStr) : Bool :=
  match s.getLast? with
  | some c => isSpaceDot c
  | none => false

/-- The full reserved-name table, flattened. -/
def reservedNames : List RStr :=
  invalidNamesMap 1 ++ invalidNamesMap 2 ++ invalidNamesMap 3 ++
    invalidNamesMap 4

/-! ## Step equations for the fuelled loops

Each `...Go` function consumes at least one list element per step, so its
value does not depend on the fuel once the fuel reaches the list length;
the `..._congr` lemmas state this, and the `..._cons` lemmas recover the
step equations of the original Go loops for the wrappers. -/

/-- A template without `$` expands to itself, whatever was matched:
every character copies through as plain text. -/
theorem tplExpandGo_no_dollar (matched : RStr) (tpl : RStr)
    (h : ¬36 ∈ tpl) : tplExpandGo matched tpl.length tpl = tpl := by
  induction tpl with
  | nil => rfl
  | cons c rest ih =>
    have hc : (c == 36) = false := by
      simp only [beq_eq_false_iff_ne, ne_eq]
      intro hcc
      exact h (hcc ▸ List.mem_cons_self c rest)
    show tplExpandGo matched (rest.length + 1) (c :: rest) = c :: rest
    simp only [tplExpandGo, hc, Bool.false_eq_true, if_false]
    rw [ih (fun hm => h (List.mem_cons_of_mem c hm))]

/-- `expandTemplate` is literal insertion for a `$`-free template. -/
theorem expandTemplate_no_dollar (tpl matched : RStr) (h : ¬36 ∈ tpl) :
    expandTemplate tpl matched = tpl :=
  tplExpandGo_no_dollar matched tpl h

/-- The empty template expands to the empty string. -/
theorem expandTemplate_nil (matched : RStr) :
    expandTemplate [] matched = [] := rfl

theorem toValidUTF8Go_congr (R : RStr) :
    ∀ (f1 f2 : Nat) (inv : Bool) (bs : Bytes), bs.length ≤ f1 →
      bs.length ≤ f2 → toValidUTF8Go R f1 inv bs = toValidUTF8Go R f2 inv bs
  | f1, f2, inv, [], h1, h2 => by
    match f1, f2 with
    | 0, 0 => rfl
    | 0, _ + 1 => rfl
    | _ + 1, 0 => rfl
    | _ + 1, _ + 1 => rfl
  | f1 + 1, f2 + 1, inv, b0 :: rest, h1, h2 => by
    rw [toValidUTF8Go, toValidUTF8Go]
    simp only [List.length_cons] at h1 h2
    match hdec : decodeRune (b0 :: rest) with
    | some (r, size) =>
      have hd := List.length_drop (size - 1) rest
      show r :: toValidUTF8Go R f1 false (rest.drop (size - 1)) =
        r :: toValidUTF8Go R f2 false (rest.drop (size - 1))
      rw [toValidUTF8Go_congr R f1 f2 false (rest.drop (size - 1))
        (by omega) (by omega)]
    | none =>
      show (if inv = true then [] else R) ++ toValidUTF8Go R f1 true rest =
        (if inv = true then [] else R) ++ toValidUTF8Go R f2 true rest
      rw [toValidUTF8Go_congr R f1 f2 true rest (by omega) (by omega)]

theorem toValidUTF8Aux_nil (R : RStr) (inv : Bool) :
    toValidUTF8Aux R inv [] = [] := rfl

theorem toValidUTF8Aux_cons (R : RStr) (inv : Bool) (b0 : Nat)
    (rest : Bytes) :
    toValidUTF8Aux R inv (b0 :: rest) =
      match decodeRune (b0 :: rest) with
      | some (r, size) =>
        r :: toValidUTF8Aux R false (rest.drop (size - 1))
      | none => (if inv then [] else R) ++ toValidUTF8Aux R true rest := by
  unfold toValidUTF8Aux
  rw [List.length_cons, toValidUTF8Go]
  match hdec : decodeRune (b0 :: rest) with
  | some (r, size) =>
    have hd := List.length_drop (size - 1) rest
    show r :: toValidUTF8Go R rest.length false (rest.drop (size - 1)) =
      r :: toValidUTF8Go R (rest.drop (size - 1)).length false
        (rest.drop (size - 1))
    rw [toValidUTF8Go_congr R rest.length (rest.drop (size - 1)).length false
      (rest.drop (size - 1)) (by omega) (by omega)]
  | none =>
    rfl

theorem unescapeGo_congr :
    ∀ (f1 f2 : Nat) (s : RStr), s.length ≤ f1 → s.length ≤ f2 →
      unescapeGo f1 s = unescapeGo f2 s
  | f1, f2, [], h1, h2 => by
    match f1, f2 with
    | 0, 0 => rfl
    | 0, _ + 1 => rfl
    | _ + 1, 0 => rfl
    | _ + 1, _ + 1 => rfl
  | f1 + 1, f2 + 1, c :: rest, h1, h2 => by
    rw [unescapeGo, unescapeGo]
    simp only [List.length_cons] at h1 h2
    have h4 := List.length_drop 4 rest
    have h3 := List.length_drop 3 rest
    have h5 := List.length_drop 5 rest
    split_ifs <;>
      first
      | rw [unescapeGo_congr f1 f2 (rest.drop 4) (by omega) (by omega)]
      | rw [unescapeGo_congr f1 f2 (rest.drop 3) (by omega) (by omega)]
      | rw [unescapeGo_congr f1 f2 (rest.drop 5) (by omega) (by omega)]
      | rw [unescapeGo_congr f1 f2 rest (by omega) (by omega)]

theorem unescapeString_nil : unescapeString [] = [] := rfl

theorem unescapeString_cons (c : Nat) (rest : RStr) :
    unescapeString (c :: rest) =
      if c == 38 then
        if (strRunes "amp;").isPrefixOf rest then
          38 :: unescapeString (rest.drop 4)
        else if (strRunes "lt;").isPrefixOf rest then
          60 :: unescapeString (rest.drop 3)
        else if (strRunes "gt;").isPrefixOf rest then
          62 :: unescapeString (rest.drop 3)
        else if (strRunes "quot;").isPrefixOf rest then
          34 :: unescapeString (rest.drop 5)
        else if (strRunes "apos;").isPrefixOf rest then
          39 :: unescapeString (rest.drop 5)
        else 38 :: unescapeString rest
      else c :: unescapeString rest := by
  unfold unescapeString
  rw [List.length_cons, unescapeGo]
  have h4 := List.length_drop 4 rest
  have h3 := List.length_drop 3 rest
  have h5 := List.length_drop 5 rest
  split_ifs <;>
    first
    | rw [unescapeGo_congr rest.length (rest.drop 4).length (rest.drop 4)
        (by omega) (by omega)]
    | rw [unescapeGo_congr rest.length (rest.drop 3).length (rest.drop 3)
        (by omega) (by omega)]
    | rw [unescapeGo_congr rest.length (rest.drop 5).length (rest.drop 5)
        (by omega) (by omega)]
    | rfl

theorem invCharGo_congr (R : RStr) :
    ∀ (f1 f2 : Nat) (s : RStr), s.length ≤ f1 → s.length ≤ f2 →
      invCharGo R f1 s = invCharGo R f2 s
  | f1, f2, [], h1, h2 => by
    match f1, f2 with
    | 0, 0 => rfl
    | 0, _ + 1 => rfl
    | _ + 1, 0 => rfl
    | _ + 1, _ + 1 => rfl
  | f1 + 1, f2 + 1, c :: rest, h1, h2 => by
    rw [invCharGo, invCharGo]
    simp only [List.length_cons] at h1 h2
    have hd := List.Sublist.length_le
      (List.dropWhile_sublist (l := rest) isInvChar)
    split_ifs <;>
      first
      | rw [invCharGo_congr R f1 f2 (rest.dropWhile isInvChar)
          (by omega) (by omega)]
      | rw [invCharGo_congr R f1 f2 rest (by omega) (by omega)]

theorem invCharReplaceAll_nil (R : RStr) : invCharReplaceAll R [] = [] := rfl

theorem invCharReplaceAll_cons (R : RStr) (c : Nat) (rest : RStr) :
    invCharReplaceAll R (c :: rest) =
      if isInvChar c then
        expandTemplate R (c :: rest.takeWhile isInvChar) ++
          invCharReplaceAll R (rest.dropWhile isInvChar)
      else c :: invCharReplaceAll R rest := by
  unfold invCharReplaceAll
  rw [List.length_cons, invCharGo]
  have hd := List.Sublist.length_le
    (List.dropWhile_sublist (l := rest) isInvChar)
  split_ifs <;>
    first
    | rw [invCharGo_congr R rest.length (rest.dropWhile isInvChar).length
        (rest.dropWhile isInvChar) (by omega) (by omega)]
    | rfl

theorem collapseSepsGo_congr :
    ∀ (f1 f2 : Nat) (s : RStr), s.length ≤ f1 → s.length ≤ f2 →
      collapseSepsGo f1 s = collapseSepsGo f2 s
  | f1, f2, [], h1, h2 => by
    match f1, f2 with
    | 0, 0 => rfl
    | 0, _ + 1 => rfl
    | _ + 1, 0 => rfl
    | _ + 1, _ + 1 => rfl
  | f1 + 1, f2 + 1, c :: rest, h1, h2 => by
    rw [collapseSepsGo, collapseSepsGo]
    simp only [List.length_cons] at h1 h2
    match hsep : sepClass c with
    | none =>
      show c :: collapseSepsGo f1 rest = c :: collapseSepsGo f2 rest
      rw [collapseSepsGo_congr f1 f2 rest (by omega) (by omega)]
    | some k =>
      have hd := List.Sublist.length_le
        (List.dropWhile_sublist (l := rest) (fun d => sepClass d == some k))
      show (if ((rest.dropWhile (fun d => sepClass d == some k)).length ==
            rest.length) = true then c :: collapseSepsGo f1 rest
          else cleanReplaceWith k ::
            collapseSepsGo f1 (rest.dropWhile (fun d => sepClass d == some k)))
        = (if ((rest.dropWhile (fun d => sepClass d == some k)).length ==
            rest.length) = true then c :: collapseSepsGo f2 rest
          else cleanReplaceWith k ::
            collapseSepsGo f2 (rest.dropWhile (fun d => sepClass d == some k)))
      split_ifs <;>
        first
        | rw [collapseSepsGo_congr f1 f2 rest (by omega) (by omega)]
        | rw [collapseSepsGo_congr f1 f2
            (rest.dropWhile (fun d => sepClass d == some k))
            (by omega) (by omega)]

theorem collapseSeps_nil : collapseSeps [] = [] := rfl

theorem collapseSeps_cons (c : Nat) (rest : RStr) :
    collapseSeps (c :: rest) =
      match sepClass c with
      | none => c :: collapseSeps rest
      | some k =>
        if (rest.dropWhile (fun d => sepClass d == some k)).length ==
            rest.length then
          c :: collapseSeps rest
        else
          cleanReplaceWith k ::
            collapseSeps (rest.dropWhile (fun d => sepClass d == some k)) := by
  unfold collapseSeps
  rw [List.length_cons, collapseSepsGo]
  match hsep : sepClass c with
  | none => rfl
  | some k =>
    have hd := List.Sublist.length_le
      (List.dropWhile_sublist (l := rest) (fun d => sepClass d == some k))
    show (if ((rest.dropWhile (fun d => sepClass d == some k)).length ==
          rest.length) = true then c :: collapseSepsGo (List.length rest) rest
        else cleanReplaceWith k ::
          collapseSepsGo (List.length rest)
            (rest.dropWhile (fun d => sepClass d == some k)))
      = (if ((rest.dropWhile (fun d => sepClass d == some k)).length ==
          rest.length) = true then c :: collapseSeps rest
        else cleanReplaceWith k ::
          collapseSeps (rest.dropWhile (fun d => sepClass d == some k)))
    split_ifs <;>
      first
      | rfl
      | (rw [collapseSepsGo_congr rest.length
          (rest.dropWhile (fun d => sepClass d == some k)).length
          (rest.dropWhile (fun d => sepClass d == some k))
          (by omega) (by omega)]
         rfl)

theorem collapseReplGo_congr (R : RStr) :
    ∀ (f1 f2 : Nat) (inRun : Bool) (s : RStr), s.length ≤ f1 →
      s.length ≤ f2 → collapseReplGo R f1 inRun s = collapseReplGo R f2 inRun s
  | f1, f2, inRun, [], h1, h2 => by
    match f1, f2 with
    | 0, 0 => rfl
    | 0, _ + 1 => rfl
    | _ + 1, 0 => rfl
    | _ + 1, _ + 1 => rfl
  | f1 + 1, f2 + 1, inRun, c :: rest, h1, h2 => by
    rw [collapseReplGo, collapseReplGo]
    simp only [List.length_cons] at h1 h2
    have hd := List.length_drop R.length (c :: rest)
    simp only [List.length_cons] at hd
    by_cases hc : (R.isPrefixOf (c :: rest) && !R.isEmpty &&
        (inRun || R.isPrefixOf ((c :: rest).drop R.length))) = true
    · rw [if_pos hc, if_pos hc]
      have hne : R.length ≠ 0 := by
        rcases Bool.and_eq_true _ _ |>.mp (Bool.and_eq_true _ _ |>.mp hc).1
          with ⟨_, h2x⟩
        simpa [List.isEmpty_iff, List.length_eq_zero] using h2x
      congr 1
      exact collapseReplGo_congr R f1 f2 true ((c :: rest).drop R.length)
        (by omega) (by omega)
    · rw [if_neg hc, if_neg hc]
      congr 1
      exact collapseReplGo_congr R f1 f2 false rest (by omega) (by omega)

theorem collapseReplAux_nil (R : RStr) (inRun : Bool) :
    collapseReplAux R inRun [] = [] := rfl

theorem collapseReplAux_cons (R : RStr) (inRun : Bool) (c : Nat)
    (rest : RStr) :
    collapseReplAux R inRun (c :: rest) =
      if (R.isPrefixOf (c :: rest) && !R.isEmpty &&
          (inRun || R.isPrefixOf ((c :: rest).drop R.length))) = true then
        (if inRun then [] else R) ++
          collapseReplAux R true ((c :: rest).drop R.length)
      else c :: collapseReplAux R false rest := by
  unfold collapseReplAux
  rw [List.length_cons, collapseReplGo]
  have hd := List.length_drop R.length (c :: rest)
  simp only [List.length_cons] at hd
  by_cases hc : (R.isPrefixOf (c :: rest) && !R.isEmpty &&
      (inRun || R.isPrefixOf ((c :: rest).drop R.length))) = true
  · rw [if_pos hc, if_pos hc]
    have hne : R.length ≠ 0 := by
      rcases Bool.and_eq_true _ _ |>.mp (Bool.and_eq_true _ _ |>.mp hc).1
        with ⟨_, h2x⟩
      simpa [List.isEmpty_iff, List.length_eq_zero] using h2x
    congr 1
    exact collapseReplGo_congr R rest.length
      ((c :: rest).drop R.length).length true ((c :: rest).drop R.length)
      (by omega) (by omega)
  · rw [if_neg hc, if_neg hc]

/-! ## Membership lemmas: where output characters come from

One lemma per rewrite stage, locating every character of the output in
the input, the replacement string, or the stage's inserted constants. -/

theorem mem_cntrlReplaceAll (R s : RStr) (c : Nat) (hR : ¬36 ∈ R)
    (h : c ∈ cntrlReplaceAll R s) :
    c ∈ R ∨ (c ∈ s ∧ isCntrl c = false) := by
  simp only [cntrlReplaceAll, List.mem_flatMap] at h
  obtain ⟨d, hd, hc⟩ := h
  by_cases hcd : isCntrl d = true
  · rw [if_pos hcd, expandTemplate_no_dollar R [d] hR] at hc
    exact Or.inl hc
  · rw [if_neg hcd] at hc
    simp only [List.mem_singleton] at hc
    subst hc
    exact Or.inr ⟨hd, by simpa using hcd⟩

theorem mem_unicodeControlReplaceAll (R s : RStr) (c : Nat) (hR : ¬36 ∈ R)
    (h : c ∈ unicodeControlReplaceAll R s) :
    c ∈ R ∨ (c ∈ s ∧ isUniCtrl c = false) := by
  simp only [unicodeControlReplaceAll, List.mem_flatMap] at h
  obtain ⟨d, hd, hc⟩ := h
  by_cases hcd : isUniCtrl d = true
  · rw [if_pos hcd, expandTemplate_no_dollar R [d] hR] at hc
    exact Or.inl hc
  · rw [if_neg hcd] at hc
    simp only [List.mem_singleton] at hc
    subst hc
    exact Or.inr ⟨hd, by simpa using hcd⟩

theorem mem_unicodeSpaceReplaceAll (s : RStr) (c : Nat)
    (h : c ∈ unicodeSpaceReplaceAll s) :
    c = 32 ∨ (c ∈ s ∧ isUniSpace c = false) := by
  simp only [unicodeSpaceReplaceAll, List.mem_flatMap] at h
  obtain ⟨d, hd, hc⟩ := h
  by_cases hcd : isUniSpace d = true
  · rw [if_pos hcd] at hc
    simp only [List.mem_singleton] at hc
    exact Or.inl hc
  · rw [if_neg hcd] at hc
    simp only [List.mem_singleton] at hc
    subst hc
    exact Or.inr ⟨hd, by simpa using hcd⟩

theorem mem_invCharGo (R : RStr) (fuel : Nat) (s : RStr) (c : Nat)
    (hR : ¬36 ∈ R) (h : c ∈ invCharGo R fuel s) :
    c ∈ R ∨ (c ∈ s ∧ isInvChar c = false) := by
  induction fuel generalizing s with
  | zero => simp [invCharGo] at h
  | succ fuel ih =>
    match s with
    | [] => simp [invCharGo] at h
    | d :: rest =>
      rw [invCharGo] at h
      by_cases hd : isInvChar d = true
      · rw [if_pos hd, expandTemplate_no_dollar R _ hR] at h
        rcases List.mem_append.mp h with h1 | h2
        · exact Or.inl h1
        · rcases ih _ h2 with h3 | ⟨h4, h5⟩
          · exact Or.inl h3
          · exact Or.inr ⟨List.mem_cons_of_mem _
              (List.Sublist.mem h4 (List.dropWhile_sublist _)), h5⟩
      · rw [if_neg hd] at h
        rcases List.mem_cons.mp h with h1 | h2
        · subst h1
          exact Or.inr ⟨List.mem_cons_self _ _, by simpa using hd⟩
        · rcases ih _ h2 with h3 | ⟨h4, h5⟩
          · exact Or.inl h3
          · exact Or.inr ⟨List.mem_cons_of_mem _ h4, h5⟩

theorem mem_invCharReplaceAll (R s : RStr) (c : Nat) (hR : ¬36 ∈ R)
    (h : c ∈ invCharReplaceAll R s) :
    c ∈ R ∨ (c ∈ s ∧ isInvChar c = false) :=
  mem_invCharGo R s.length s c hR h

theorem mem_trimRightSD (s : RStr) (c : Nat) (h : c ∈ trimRightSD s) :
    c ∈ s := by
  simp only [trimRightSD, List.mem_reverse] at h
  exact List.mem_reverse.mp (List.Sublist.mem h (List.dropWhile_sublist _))

theorem mem_rightSDReplaceAll (R s : RStr) (c : Nat) (hR : ¬36 ∈ R)
    (h : c ∈ rightSDReplaceAll R s) : c ∈ R ∨ c ∈ s := by
  rw [rightSDReplaceAll] at h
  split at h
  · exact Or.inr h
  · rw [expandTemplate_no_dollar R _ hR] at h
    rcases List.mem_append.mp h with h1 | h2
    · exact Or.inr (mem_trimRightSD _ _ h1)
    · exact Or.inl h2

theorem mem_leftdotReplaceAll (s : RStr) (c : Nat)
    (h : c ∈ leftdotReplaceAll s) : c = 46 ∨ c ∈ s := by
  cases s with
  | nil => simp [leftdotReplaceAll] at h
  | cons d rest =>
    simp only [leftdotReplaceAll.eq_def] at h
    split at h
    · rcases List.mem_cons.mp h with h1 | h2
      · exact Or.inl h1
      · exact Or.inr (List.mem_cons_of_mem _
          (List.Sublist.mem h2 (List.dropWhile_sublist _)))
    · exact Or.inr h

theorem cleanReplaceWith_mem (k : Nat) :
    cleanReplaceWith k ∈ [32, 95, 45, 43, 46, 33] := by
  unfold cleanReplaceWith
  split_ifs <;> simp

theorem mem_collapseSepsGo (fuel : Nat) (s : RStr) (c : Nat)
    (h : c ∈ collapseSepsGo fuel s) :
    c ∈ s ∨ c ∈ [32, 95, 45, 43, 46, 33] := by
  induction fuel generalizing s with
  | zero => simp [collapseSepsGo] at h
  | succ fuel ih =>
    match s with
    | [] => simp [collapseSepsGo] at h
    | d :: rest =>
      rw [collapseSepsGo] at h
      match hsep : sepClass d with
      | none =>
        rw [hsep] at h
        rcases List.mem_cons.mp h with h1 | h2
        · exact Or.inl (h1 ▸ List.mem_cons_self _ _)
        · rcases ih _ h2 with h3 | h4
          · exact Or.inl (List.mem_cons_of_mem _ h3)
          · exact Or.inr h4
      | some k =>
        rw [hsep] at h
        dsimp only at h
        split at h
        · rcases List.mem_cons.mp h with h1 | h2
          · exact Or.inl (h1 ▸ List.mem_cons_self _ _)
          · rcases ih _ h2 with h3 | h4
            · exact Or.inl (List.mem_cons_of_mem _ h3)
            · exact Or.inr h4
        · rcases List.mem_cons.mp h with h1 | h2
          · subst h1
            exact Or.inr (cleanReplaceWith_mem k)
          · rcases ih _ h2 with h3 | h4
            · exact Or.inl (List.mem_cons_of_mem _
                (List.Sublist.mem h3 (List.dropWhile_sublist _)))
            · exact Or.inr h4

theorem mem_collapseSeps (s : RStr) (c : Nat) (h : c ∈ collapseSeps s) :
    c ∈ s ∨ c ∈ [32, 95, 45, 43, 46, 33] :=
  mem_collapseSepsGo s.length s c h

theorem mem_collapseReplGo (R : RStr) (fuel : Nat) (b : Bool) (s : RStr)
    (c : Nat) (h : c ∈ collapseReplGo R fuel b s) : c ∈ R ∨ c ∈ s := by
  induction fuel generalizing b s with
  | zero => simp [collapseReplGo] at h
  | succ fuel ih =>
    match s with
    | [] => simp [collapseReplGo] at h
    | d :: rest =>
      rw [collapseReplGo] at h
      split at h
      · rcases List.mem_append.mp h with h1 | h2
        · split at h1
          · simp at h1
          · exact Or.inl h1
        · rcases ih _ _ h2 with h3 | h4
          · exact Or.inl h3
          · exact Or.inr (List.Sublist.mem h4 (List.drop_sublist _ _))
      · rcases List.mem_cons.mp h with h1 | h2
        · exact Or.inr (h1 ▸ List.mem_cons_self _ _)
        · rcases ih _ _ h2 with h3 | h4
          · exact Or.inl h3
          · exact Or.inr (List.mem_cons_of_mem _ h4)

theorem mem_collapseReplAux (R : RStr) (b : Bool) (s : RStr) (c : Nat)
    (h : c ∈ collapseReplAux R b s) : c ∈ R ∨ c ∈ s :=
  mem_collapseReplGo R s.length b s c h

theorem mem_unescapeGo (fuel : Nat) (s : RStr) (c : Nat)
    (h : c ∈ unescapeGo fuel s) : c ∈ s ∨ c ∈ [38, 60, 62, 34, 39] := by
  induction fuel generalizing s with
  | zero => simp [unescapeGo] at h
  | succ fuel ih =>
    match s with
    | [] => simp [unescapeGo] at h
    | d :: rest =>
      rw [unescapeGo] at h
      by_cases hd : (d == 38) = true
      · rw [if_pos hd] at h
        split_ifs at h <;>
          (rcases List.mem_cons.mp h with h1 | h2
           · subst h1
             simp
           · rcases ih _ h2 with h3 | h4
             · first
               | exact Or.inl (List.mem_cons_of_mem _
                   (List.Sublist.mem h3 (List.drop_sublist _ _)))
               | exact Or.inl (List.mem_cons_of_mem _ h3)
             · exact Or.inr h4)
      · rw [if_neg hd] at h
        rcases List.mem_cons.mp h with h1 | h2
        · exact Or.inl (h1 ▸ List.mem_cons_self _ _)
        · rcases ih _ h2 with h3 | h4
          · exact Or.inl (List.mem_cons_of_mem _ h3)
          · exact Or.inr h4

theorem mem_unescapeString (s : RStr) (c : Nat)
    (h : c ∈ unescapeString s) : c ∈ s ∨ c ∈ [38, 60, 62, 34, 39] :=
  mem_unescapeGo s.length s c h

/-! ## UTF-8 decode soundness -/

theorem decodeRune2_sound (b0 : Nat) (rest : Bytes) (r size : Nat)
    (hb0 : 0xC2 ≤ b0 ∧ b0 ≤ 0xDF)
    (h : decodeRune2 b0 rest = some (r, size)) :
    0x80 ≤ r ∧ r < 0x800 ∧ size = 2 ∧ ∃ b1 t, rest = b1 :: t := by
  match rest with
  | [] => simp [decodeRune2] at h
  | b1 :: t =>
    rw [decodeRune2] at h
    split at h
    · rename_i hc
      simp only [contByte, Bool.and_eq_true, decide_eq_true_eq] at hc
      simp only [Option.some.injEq, Prod.mk.injEq] at h
      obtain ⟨hr, hs⟩ := h
      subst hr
      exact ⟨by omega, by omega, hs.symm, b1, t, rfl⟩
    · simp at h

theorem decodeRune3_sound (b0 : Nat) (rest : Bytes) (r size : Nat)
    (hb0 : 0xE0 ≤ b0 ∧ b0 ≤ 0xEF)
    (h : decodeRune3 b0 rest = some (r, size)) :
    0x800 ≤ r ∧ r < 0x10000 ∧ (r < 0xD800 ∨ 0xDFFF < r) ∧ size = 3 ∧
      ∃ b1 b2 t, rest = b1 :: b2 :: t := by
  match rest with
  | [] => simp [decodeRune3] at h
  | [b1] => simp [decodeRune3] at h
  | b1 :: b2 :: t =>
    rw [decodeRune3] at h
    split at h
    · rename_i hc
      simp only [Bool.and_eq_true] at hc
      obtain ⟨hc1, hc2⟩ := hc
      simp only [contByte, Bool.and_eq_true, decide_eq_true_eq] at hc2
      simp only [Option.some.injEq, Prod.mk.injEq] at h
      obtain ⟨hr, hs⟩ := h
      subst hr
      unfold snd3Ok at hc1
      split_ifs at hc1 with he0 hed <;>
        simp only [contByte, Bool.and_eq_true, decide_eq_true_eq] at hc1
      · subst he0
        exact ⟨by omega, by omega, Or.inl (by omega), hs.symm, b1, b2, t, rfl⟩
      · subst hed
        exact ⟨by omega, by omega, Or.inl (by omega), hs.symm, b1, b2, t, rfl⟩
      · refine ⟨by omega, by omega, ?_, hs.symm, b1, b2, t, rfl⟩
        rcases Nat.lt_or_ge b0 0xED with hlt | hge
        · left
          have : b0 ≤ 0xEC := by omega
          omega
        · right
          have : 0xEE ≤ b0 := by omega
          omega
    · simp at h

theorem decodeRune4_sound (b0 : Nat) (rest : Bytes) (r size : Nat)
    (hb0 : 0xF0 ≤ b0 ∧ b0 ≤ 0xF4)
    (h : decodeRune4 b0 rest = some (r, size)) :
    0x10000 ≤ r ∧ r < 0x110000 ∧ size = 4 ∧
      ∃ b1 b2 b3 t, rest = b1 :: b2 :: b3 :: t := by
  match rest with
  | [] => simp [decodeRune4] at h
  | [b1] => simp [decodeRune4] at h
  | [b1, b2] => simp [decodeRune4] at h
  | b1 :: b2 :: b3 :: t =>
    rw [decodeRune4] at h
    split at h
    · rename_i hc
      simp only [Bool.and_eq_true] at hc
      obtain ⟨⟨hc1, hc2⟩, hc3⟩ := hc
      simp only [contByte, Bool.and_eq_true, decide_eq_true_eq] at hc2 hc3
      simp only [Option.some.injEq, Prod.mk.injEq] at h
      obtain ⟨hr, hs⟩ := h
      subst hr
      unfold snd4Ok at hc1
      split_ifs at hc1 with hf0 hf4 <;>
        simp only [contByte, Bool.and_eq_true, decide_eq_true_eq] at hc1
      · subst hf0
        exact ⟨by omega, by omega, hs.symm, b1, b2, b3, t, rfl⟩
      · subst hf4
        exact ⟨by omega, by omega, hs.symm, b1, b2, b3, t, rfl⟩
      · exact ⟨by omega, by omega, hs.symm, b1, b2, b3, t, rfl⟩
    · simp at h

theorem decodeRune_sound (bs : Bytes) (r size : Nat)
    (h : decodeRune bs = some (r, size)) :
    ValidScalar r ∧ utf8Len r = size ∧ 1 ≤ size ∧ size ≤ bs.length ∧
      (r < 0x80 → bs.head? = some r) := by
  match bs with
  | [] => simp [decodeRune] at h
  | b0 :: rest =>
    rw [decodeRune] at h
    split_ifs at h with h1 h2 h3 h4
    · simp only [Option.some.injEq, Prod.mk.injEq] at h
      obtain ⟨hr, hs⟩ := h
      subst hr hs
      exact ⟨Or.inl (by omega), by simp [utf8Len, h1], by omega,
        by simp, fun _ => rfl⟩
    · simp only [Bool.and_eq_true, decide_eq_true_eq] at h2
      obtain ⟨hlo, hmid, hsz, b1, t, hrest⟩ := decodeRune2_sound b0 rest r size h2 h
      subst hsz hrest
      refine ⟨Or.inl (by omega), ?_, by omega, by simp, fun hlt => by omega⟩
      unfold utf8Len
      rw [if_neg (by omega), if_pos (by omega)]
    · simp only [Bool.and_eq_true, decide_eq_true_eq] at h3
      obtain ⟨hlo, hmid, hsur, hsz, b1, b2, t, hrest⟩ :=
        decodeRune3_sound b0 rest r size h3 h
      subst hsz hrest
      refine ⟨?_, ?_, by omega, by simp, fun hlt => by omega⟩
      · rcases hsur with hs1 | hs2
        · exact Or.inl hs1
        · exact Or.inr ⟨hs2, by omega⟩
      · unfold utf8Len
        rw [if_neg (by omega), if_neg (by omega), if_pos (by omega)]
    · simp only [Bool.and_eq_true, decide_eq_true_eq] at h4
      obtain ⟨hlo, hhi, hsz, b1, b2, b3, t, hrest⟩ :=
        decodeRune4_sound b0 rest r size h4 h
      subst hsz hrest
      refine ⟨Or.inr ⟨by omega, hhi⟩, ?_, by omega, by simp,
        fun hlt => by omega⟩
      unfold utf8Len
      rw [if_neg (by omega), if_neg (by omega), if_neg (by omega)]

/-! ## Byte-length and round-trip lemmas -/

theorem byteLen_nil : byteLen [] = 0 := rfl

theorem byteLen_cons (c : Nat) (s : RStr) :
    byteLen (c :: s) = utf8Len c + byteLen s := by
  simp [byteLen]

theorem byteLen_append (s t : RStr) :
    byteLen (s ++ t) = byteLen s + byteLen t := by
  simp [byteLen]

theorem mem_toValidUTF8Go (R : RStr) (fuel : Nat) (inv : Bool) (bs : Bytes)
    (c : Nat) (h : c ∈ toValidUTF8Go R fuel inv bs) :
    c ∈ R ∨ (ValidScalar c ∧ (c < 0x80 → c ∈ bs)) := by
  induction fuel generalizing inv bs with
  | zero => simp [toValidUTF8Go] at h
  | succ fuel ih =>
    match bs with
    | [] => simp [toValidUTF8Go] at h
    | b0 :: rest =>
      rw [toValidUTF8Go] at h
      match hdec : decodeRune (b0 :: rest) with
      | some (r, size) =>
        rw [hdec] at h
        dsimp only at h
        obtain ⟨hsc, hlen, hsz, hle, hhd⟩ := decodeRune_sound _ _ _ hdec
        rcases List.mem_cons.mp h with h1 | h2
        · subst h1
          refine Or.inr ⟨hsc, fun hlt => ?_⟩
          have := hhd hlt
          simp only [List.head?_cons, Option.some.injEq] at this
          exact this ▸ List.mem_cons_self _ _
        · rcases ih _ _ h2 with h3 | ⟨h4, h5⟩
          · exact Or.inl h3
          · refine Or.inr ⟨h4, fun hlt => List.mem_cons_of_mem _
              (List.Sublist.mem (h5 hlt) (List.drop_sublist _ _))⟩
      | none =>
        rw [hdec] at h
        dsimp only at h
        rcases List.mem_append.mp h with h1 | h2
        · split at h1
          · simp at h1
          · exact Or.inl h1
        · rcases ih _ _ h2 with h3 | ⟨h4, h5⟩
          · exact Or.inl h3
          · exact Or.inr ⟨h4, fun hlt => List.mem_cons_of_mem _ (h5 hlt)⟩

theorem mem_toValidUTF8Aux (R : RStr) (inv : Bool) (bs : Bytes) (c : Nat)
    (h : c ∈ toValidUTF8Aux R inv bs) :
    c ∈ R ∨ (ValidScalar c ∧ (c < 0x80 → c ∈ bs)) :=
  mem_toValidUTF8Go R bs.length inv bs c h

theorem byteLen_toValidUTF8Go (fuel : Nat) (inv : Bool) (bs : Bytes) :
    byteLen (toValidUTF8Go [] fuel inv bs) ≤ bs.length := by
  induction fuel generalizing inv bs with
  | zero => simp [toValidUTF8Go, byteLen]
  | succ fuel ih =>
    match bs with
    | [] => simp [toValidUTF8Go, byteLen]
    | b0 :: rest =>
      rw [toValidUTF8Go]
      match hdec : decodeRune (b0 :: rest) with
      | some (r, size) =>
        dsimp only
        obtain ⟨hsc, hlen, hsz, hle, hhd⟩ := decodeRune_sound _ _ _ hdec
        rw [byteLen_cons, hlen]
        have hd := List.length_drop (size - 1) rest
        have := ih false (rest.drop (size - 1))
        simp only [List.length_cons] at hle ⊢
        omega
      | none =>
        dsimp only
        rw [show (if inv = true then ([] : RStr) else []) = [] by
          split <;> rfl]
        rw [List.nil_append]
        have := ih true rest
        simp only [List.length_cons]
        omega

theorem byteLen_toValidUTF8Aux (inv : Bool) (bs : Bytes) :
    byteLen (toValidUTF8Aux [] inv bs) ≤ bs.length :=
  byteLen_toValidUTF8Go bs.length inv bs

theorem mem_utf8EncodeChar_ascii (r b : Nat) (hb : b ∈ utf8EncodeChar r)
    (hlt : b < 0x80) : b = r := by
  unfold utf8EncodeChar at hb
  split_ifs at hb with h1 h2 h3 <;> simp only [List.mem_cons,
    List.mem_singleton, List.not_mem_nil, or_false] at hb
  · exact hb
  · rcases hb with h | h <;> omega
  · rcases hb with h | h | h <;> omega
  · rcases hb with h | h | h | h <;> omega

theorem mem_utf8Encode_ascii (s : RStr) (b : Nat) (hb : b ∈ utf8Encode s)
    (hlt : b < 0x80) : b ∈ s := by
  simp only [utf8Encode, List.mem_flatMap] at hb
  obtain ⟨r, hr, hbr⟩ := hb
  exact (mem_utf8EncodeChar_ascii r b hbr hlt) ▸ hr

theorem decodeRune_encodeChar (c : Nat) (hc : ValidScalar c) (rest : Bytes) :
    decodeRune (utf8EncodeChar c ++ rest) = some (c, utf8Len c) := by
  unfold utf8EncodeChar
  rcases Nat.lt_or_ge c 0x80 with h1 | h1
  · rw [if_pos h1]
    rw [List.cons_append, decodeRune]
    rw [if_pos h1]
    unfold utf8Len
    rw [if_pos h1]
  · rw [if_neg (by omega)]
    rcases Nat.lt_or_ge c 0x800 with h2 | h2
    · rw [if_pos h2]
      rw [List.cons_append, List.cons_append, decodeRune]
      rw [if_neg (by omega),
        if_pos (by simp only [Bool.and_eq_true, decide_eq_true_eq]; omega)]
      rw [decodeRune2, if_pos (by
        simp only [contByte, Bool.and_eq_true, decide_eq_true_eq]; omega)]
      unfold utf8Len
      rw [if_neg (by omega), if_pos h2]
      congr 2
      omega
    · rw [if_neg (by omega)]
      rcases Nat.lt_or_ge c 0x10000 with h3 | h3
      · rw [if_pos h3]
        rw [List.cons_append, List.cons_append, List.cons_append, decodeRune]
        rw [if_neg (by omega),
          if_neg (by simp only [Bool.and_eq_true, decide_eq_true_eq]; omega),
          if_pos (by simp only [Bool.and_eq_true, decide_eq_true_eq]; omega)]
        have hsur : c < 0xD800 ∨ 0xDFFF < c := by
          rcases hc with h | ⟨h, _⟩
          · exact Or.inl h
          · exact Or.inr h
        rw [decodeRune3, if_pos (by
          unfold snd3Ok contByte
          split_ifs with he0 hed <;>
            simp only [Bool.and_eq_true, decide_eq_true_eq] <;>
            constructor <;> omega)]
        unfold utf8Len
        rw [if_neg (by omega), if_neg (by omega), if_pos h3]
        congr 2
        omega
      · rw [if_neg (by omega)]
        have h4 : c < 0x110000 := by
          rcases hc with h | ⟨_, h⟩ <;> omega
        rw [List.cons_append, List.cons_append, List.cons_append,
          List.cons_append, decodeRune]
        rw [if_neg (by omega),
          if_neg (by simp only [Bool.and_eq_true, decide_eq_true_eq]; omega),
          if_neg (by simp only [Bool.and_eq_true, decide_eq_true_eq]; omega),
          if_pos (by simp only [Bool.and_eq_true, decide_eq_true_eq]; omega)]
        rw [decodeRune4, if_pos (by
          unfold snd4Ok contByte
          split_ifs with hf0 hf4 <;>
            simp only [Bool.and_eq_true, decide_eq_true_eq] <;>
            refine ⟨⟨?_, ?_⟩, ?_⟩ <;> omega)]
        unfold utf8Len
        rw [if_neg (by omega), if_neg (by omega), if_neg (by omega)]
        congr 2
        omega

/-! ## Round-trip and tail-shape lemmas -/

theorem utf8EncodeChar_length (c : Nat) :
    (utf8EncodeChar c).length = utf8Len c := by
  unfold utf8EncodeChar utf8Len
  split_ifs <;> rfl

theorem toValidUTF8Aux_encodeChar (R : RStr) (c : Nat) (hc : ValidScalar c)
    (rest : Bytes) :
    toValidUTF8Aux R false (utf8EncodeChar c ++ rest) =
      c :: toValidUTF8Aux R false rest := by
  have hdec := decodeRune_encodeChar c hc rest
  have hlen := utf8EncodeChar_length c
  match henc : utf8EncodeChar c with
  | [] => rw [henc] at hlen; unfold utf8Len at hlen; split_ifs at hlen <;>
      simp at hlen
  | b0 :: t =>
    rw [henc] at hdec hlen
    rw [List.cons_append] at hdec ⊢
    rw [toValidUTF8Aux_cons, hdec]
    show c :: toValidUTF8Aux R false ((t ++ rest).drop (utf8Len c - 1)) =
      c :: toValidUTF8Aux R false rest
    congr 1
    have hl : utf8Len c - 1 = t.length := by
      simp only [List.length_cons] at hlen
      omega
    rw [hl, List.drop_left]

theorem toValidUTF8_encode (s : RStr) (hs : ∀ c ∈ s, ValidScalar c)
    (R : RStr) : toValidUTF8 (utf8Encode s) R = s := by
  induction s with
  | nil => rfl
  | cons c rest ih =>
    have hc := hs c (List.mem_cons_self _ _)
    have hrest : ∀ d ∈ rest, ValidScalar d := fun d hd =>
      hs d (List.mem_cons_of_mem _ hd)
    show toValidUTF8Aux R false (utf8Encode (c :: rest)) = c :: rest
    have : utf8Encode (c :: rest) = utf8EncodeChar c ++ utf8Encode rest := by
      simp [utf8Encode]
    rw [this, toValidUTF8Aux_encodeChar R c hc]
    exact congrArg (c :: ·) (ih hrest)

theorem head?_dropWhile_not (p : Nat → Bool) (l : List Nat) (c : Nat)
    (h : (l.dropWhile p).head? = some c) : p c = false := by
  induction l with
  | nil => simp [List.dropWhile] at h
  | cons d rest ih =>
    rw [List.dropWhile_cons] at h
    by_cases hpd : p d = true
    · rw [if_pos hpd] at h
      exact ih h
    · rw [if_neg hpd] at h
      simp only [List.head?_cons, Option.some.injEq] at h
      subst h
      simpa using hpd

theorem getLast?_dropWhile (p : Nat → Bool) (l : List Nat)
    (h : l.dropWhile p ≠ []) : (l.dropWhile p).getLast? = l.getLast? := by
  conv_rhs => rw [← List.takeWhile_append_dropWhile p l]
  rw [List.getLast?_append]
  match hm : (l.dropWhile p).getLast? with
  | some c => simp [Option.or]
  | none => exact absurd (List.getLast?_eq_none_iff.mp hm) h

theorem dropWhile_dropWhile (p : Nat → Bool) (l : List Nat) :
    (l.dropWhile p).dropWhile p = l.dropWhile p := by
  match hm : l.dropWhile p with
  | [] => rfl
  | c :: t =>
    have hc : p c = false := head?_dropWhile_not p l c (by rw [hm]; rfl)
    rw [List.dropWhile_cons, hc]
    simp

theorem endsSpaceDot_trimRightSD (s : RStr) :
    endsSpaceDot (trimRightSD s) = false := by
  unfold endsSpaceDot trimRightSD
  match hm : (s.reverse.dropWhile isSpaceDot).reverse.getLast? with
  | none => rfl
  | some c =>
    have : (s.reverse.dropWhile isSpaceDot).head? = some c := by
      rw [← List.getLast?_reverse]
      exact hm
    exact head?_dropWhile_not _ _ _ this

theorem trimRightSD_eq_self (s : RStr) (h : endsSpaceDot s = false) :
    trimRightSD s = s := by
  unfold endsSpaceDot at h
  unfold trimRightSD
  match hm : s.reverse with
  | [] =>
    have : s = [] := by
      have := congrArg List.reverse hm
      simpa using this
    subst this
    rfl
  | c :: t =>
    have hc : isSpaceDot c = false := by
      have : s.getLast? = some c := by
        rw [← List.head?_reverse, hm]
        rfl
      rw [this] at h
      exact h
    rw [List.dropWhile_cons, hc]
    rw [if_neg (by simp)]
    have := congrArg List.reverse hm
    simpa using this.symm

theorem rightSD_eq_self (R s : RStr) (h : endsSpaceDot s = false) :
    rightSDReplaceAll R s = s := by
  unfold rightSDReplaceAll
  rw [if_pos (trimRightSD_eq_self s h)]

theorem trimRightSD_ne_self (s : RStr) (h : endsSpaceDot s = true) :
    trimRightSD s ≠ s := by
  intro heq
  rw [← heq, endsSpaceDot_trimRightSD] at h
  simp at h

theorem endsSpaceDot_rightSD (R s : RStr) (hR : endsSpaceDot R = false)
    (hRd : ¬36 ∈ R) :
    endsSpaceDot (rightSDReplaceAll R s) = false := by
  unfold rightSDReplaceAll
  split
  · rename_i heq
    match hm : endsSpaceDot s with
    | false => rfl
    | true => exact absurd heq (trimRightSD_ne_self s hm)
  · rw [expandTemplate_no_dollar R _ hRd]
    unfold endsSpaceDot at hR ⊢
    rw [List.getLast?_append]
    match hmr : R.getLast? with
    | some c =>
      rw [hmr] at hR
      simpa [Option.or] using hR
    | none =>
      simp only [Option.none_or]
      exact endsSpaceDot_trimRightSD s

theorem endsSpaceDot_leftdot (s : RStr) (h : endsSpaceDot s = false) :
    endsSpaceDot (leftdotReplaceAll s) = false := by
  match s with
  | [] => exact h
  | d :: rest =>
    rw [leftdotReplaceAll]
    by_cases hd : isDot d = true
    · rw [if_pos hd]
      have hd46 : d = 46 := by simpa [isDot] using hd
      match hm : rest.dropWhile isDot with
      | [] =>
        exfalso
        have hall : ∀ x ∈ rest, isDot x = true := List.dropWhile_eq_nil_iff.mp hm
        unfold endsSpaceDot at h
        match hml : (d :: rest).getLast? with
        | none => simp at hml
        | some c =>
          rw [hml] at h
          have hc : c ∈ d :: rest := by
            have := List.getLast?_eq_getLast (d :: rest) (by simp)
            rw [hml] at this
            simp only [Option.some.injEq] at this
            exact this ▸ List.getLast_mem _
          rcases List.mem_cons.mp hc with h1 | h2
          · subst h1
            simp [isSpaceDot, isSpaceChar, hd46] at h
          · have := hall c h2
            simp only [isDot, beq_iff_eq] at this
            subst this
            simp [isSpaceDot, isSpaceChar] at h
      | e :: t =>
        unfold endsSpaceDot at h ⊢
        have hne : rest.dropWhile isDot ≠ [] := by rw [hm]; simp
        have hlast := getLast?_dropWhile isDot rest hne
        have hrestne : rest ≠ [] := by
          intro hx
          subst hx
          simp [List.dropWhile] at hm
        have hlast2 : (d :: rest).getLast? = rest.getLast? := by
          match hml2 : rest, hrestne with
          | e2 :: t2, _ => simp [List.getLast?_cons_cons]
        have hfin : (46 :: e :: t).getLast? = (d :: rest).getLast? := by
          rw [List.getLast?_cons_cons, ← hm, hlast, hlast2]
        rw [hfin]
        exact h
    · rw [if_neg hd]
      exact h

theorem leftdot_idem (s : RStr) :
    leftdotReplaceAll (leftdotReplaceAll s) = leftdotReplaceAll s := by
  match s with
  | [] => rfl
  | d :: rest =>
    rw [leftdotReplaceAll]
    by_cases hd : isDot d = true
    · rw [if_pos hd]
      rw [leftdotReplaceAll, if_pos (by simp [isDot])]
      rw [dropWhile_dropWhile]
    · rw [if_neg hd]
      rw [leftdotReplaceAll, if_neg hd]

theorem cntrlReplaceAll_eq_self (R s : RStr)
    (h : ∀ c ∈ s, isCntrl c = false) : cntrlReplaceAll R s = s := by
  induction s with
  | nil => rfl
  | cons c rest ih =>
    unfold cntrlReplaceAll at ih ⊢
    simp only [List.flatMap_cons, if_neg (by
      simp [h c (List.mem_cons_self _ _)] : ¬isCntrl c = true)]
    rw [ih fun d hd => h d (List.mem_cons_of_mem _ hd)]
    rfl

theorem unicodeControlReplaceAll_eq_self (R s : RStr)
    (h : ∀ c ∈ s, isUniCtrl c = false) :
    unicodeControlReplaceAll R s = s := by
  induction s with
  | nil => rfl
  | cons c rest ih =>
    unfold unicodeControlReplaceAll at ih ⊢
    simp only [List.flatMap_cons, if_neg (by
      simp [h c (List.mem_cons_self _ _)] : ¬isUniCtrl c = true)]
    rw [ih fun d hd => h d (List.mem_cons_of_mem _ hd)]
    rfl

theorem unicodeSpaceReplaceAll_eq_self (s : RStr)
    (h : ∀ c ∈ s, isUniSpace c = true → c = 32) :
    unicodeSpaceReplaceAll s = s := by
  induction s with
  | nil => rfl
  | cons c rest ih =>
    unfold unicodeSpaceReplaceAll at ih ⊢
    simp only [List.flatMap_cons]
    rw [ih fun d hd hsp => h d (List.mem_cons_of_mem _ hd) hsp]
    by_cases hc : isUniSpace c = true
    · rw [if_pos hc, h c (List.mem_cons_self _ _) hc]
      rfl
    · rw [if_neg hc]
      rfl

theorem invCharReplaceAll_eq_self (R s : RStr)
    (h : ∀ c ∈ s, isInvChar c = false) : invCharReplaceAll R s = s := by
  induction s with
  | nil => rfl
  | cons c rest ih =>
    rw [invCharReplaceAll_cons, if_neg (by
      simp [h c (List.mem_cons_self _ _)] : ¬isInvChar c = true)]
    rw [ih fun d hd => h d (List.mem_cons_of_mem _ hd)]

theorem unescapeString_eq_self (s : RStr) (h : ¬38 ∈ s) :
    unescapeString s = s := by
  induction s with
  | nil => rfl
  | cons c rest ih =>
    rw [unescapeString_cons, if_neg (by
      simp only [beq_iff_eq]
      intro hx
      exact h (hx ▸ List.mem_cons_self _ _))]
    rw [ih fun hx => h (List.mem_cons_of_mem _ hx)]

/-! ## md5 output shape -/

theorem mem_md5Sum_lt (m : Bytes) (b : Nat) (h : b ∈ md5Sum m) : b < 256 := by
  unfold md5Sum at h
  match (chunks64 (md5Pad m)).foldl md5Chunk
      (0x67452301, 0xefcdab89, 0x98badcfe, 0x10325476) with
  | (a, bb, c, d) =>
    simp only [List.mem_flatMap, List.mem_map, List.mem_range] at h
    obtain ⟨w, _, j, _, hj⟩ := h
    omega

theorem md5Sum_length (m : Bytes) : (md5Sum m).length = 16 := by
  unfold md5Sum
  match (chunks64 (md5Pad m)).foldl md5Chunk
      (0x67452301, 0xefcdab89, 0x98badcfe, 0x10325476) with
  | (a, b, c, d) => simp

theorem mem_md5Hex (m : Bytes) (c : Nat) (h : c ∈ md5Hex m) :
    (48 ≤ c ∧ c ≤ 57) ∨ (97 ≤ c ∧ c ≤ 102) := by
  unfold md5Hex at h
  simp only [List.mem_flatMap, List.mem_cons, List.mem_singleton,
    List.not_mem_nil, or_false] at h
  obtain ⟨b, hb, hc⟩ := h
  have hlt := mem_md5Sum_lt m b hb
  unfold hexDigit at hc
  rcases hc with hc | hc <;> subst hc <;> split_ifs <;> omega

theorem md5Hex_length (m : Bytes) : (md5Hex m).length = 32 := by
  unfold md5Hex
  rw [List.length_flatMap]
  have hmap : (md5Sum m).map
      (List.length ∘ fun b => [hexDigit (b / 16), hexDigit (b % 16)]) =
      (md5Sum m).map (fun _ => 2) := List.map_congr_left fun b _ => rfl
  rw [hmap, List.map_const', List.sum_replicate, md5Sum_length]
  norm_num

theorem md5Hex_ne_nil (m : Bytes) : md5Hex m ≠ [] := by
  intro h
  have := md5Hex_length m
  rw [h] at this
  simp at this

theorem byteLen_md5Hex (m : Bytes) : byteLen (md5Hex m) = 32 := by
  unfold byteLen
  have hmap : (md5Hex m).map utf8Len = (md5Hex m).map (fun _ => 1) :=
    List.map_congr_left fun c hc => by
      have := mem_md5Hex m c hc
      unfold utf8Len
      rw [if_pos (by omega)]
  rw [hmap, List.map_const', List.sum_replicate, md5Hex_length]
  rfl

theorem endsSpaceDot_md5Hex (m : Bytes) : endsSpaceDot (md5Hex m) = false := by
  unfold endsSpaceDot
  match hm : (md5Hex m).getLast? with
  | none => rfl
  | some c =>
    have hc : c ∈ md5Hex m := by
      have h1 := List.getLast?_eq_getLast (md5Hex m) (md5Hex_ne_nil m)
      rw [hm] at h1
      simp only [Option.some.injEq] at h1
      exact h1 ▸ List.getLast_mem _
    have := mem_md5Hex m c hc
    unfold isSpaceDot isSpaceChar
    simp only [Bool.or_eq_false_iff, beq_eq_false_iff_ne]
    omega

/-! ## Validator facts -/

theorem byteLen_asciiLower (s : RStr) : byteLen (asciiLower s) = byteLen s := by
  unfold byteLen asciiLower
  rw [List.map_map]
  congr 1
  refine List.map_congr_left fun c _ => ?_
  simp only [Function.comp_apply]
  unfold utf8Len
  split_ifs <;> omega

theorem reservedNames_spec :
    ∀ res ∈ reservedNames, byteLen res ≤ 4 ∧
      res ∈ invalidNamesMap (byteLen res) := by decide

theorem valid_not_reserved (s : RStr) (hv : valid s = true) :
    ∀ res ∈ reservedNames, asciiLower s ≠ res := by
  intro res hres heq
  subst heq
  obtain ⟨hres4, hresmem⟩ := reservedNames_spec _ hres
  rw [byteLen_asciiLower] at hres4 hresmem
  unfold valid at hv
  split_ifs at hv with h1 h2
  · rw [Bool.not_eq_true', List.any_eq_false] at hv
    have hne := hv (asciiLower s) hresmem
    simp at hne
  · omega

/-! ## Truncation -/

theorem utf8Len_le_four (c : Nat) : utf8Len c ≤ 4 := by
  unfold utf8Len
  split_ifs <;> omega

theorem byteLen_truncate_le (s : RStr) (L : Nat) :
    byteLen (truncate s L) ≤ L := by
  unfold truncate toValidUTF8
  calc byteLen (toValidUTF8Aux [] false ((utf8Encode s).take L))
      ≤ ((utf8Encode s).take L).length := byteLen_toValidUTF8Aux _ _
    _ ≤ L := by simp [List.length_take]

theorem truncate_ne_nil (s : RStr) (L : Nat) (hL : 4 ≤ L) (hs : s ≠ [])
    (hsc : ∀ c ∈ s, ValidScalar c) : truncate s L ≠ [] := by
  match s, hs with
  | c :: t, _ =>
    unfold truncate toValidUTF8
    have hc := hsc c (List.mem_cons_self _ _)
    have henc : utf8Encode (c :: t) = utf8EncodeChar c ++ utf8Encode t := by
      simp [utf8Encode]
    rw [henc, List.take_append_eq_append_take,
      List.take_of_length_le (by
        rw [utf8EncodeChar_length]
        have := utf8Len_le_four c
        omega),
      toValidUTF8Aux_encodeChar [] c hc]
    simp

theorem mem_truncate_ascii (s : RStr) (L : Nat) (c : Nat)
    (h : c ∈ truncate s L) (hlt : c < 0x80) : c ∈ s := by
  unfold truncate toValidUTF8 at h
  rcases mem_toValidUTF8Aux [] false _ c h with h1 | ⟨_, h2⟩
  · simp at h1
  · exact mem_utf8Encode_ascii s c
      (List.Sublist.mem (h2 hlt) (List.take_sublist _ _)) hlt

theorem endsSpaceDot_truncate (s : RStr) (L : Nat)
    (h : endsSpaceDot (truncate s L) = true) :
    ∃ c ∈ s, isSpaceDot c = true := by
  unfold endsSpaceDot at h
  match hm : (truncate s L).getLast? with
  | none => rw [hm] at h; simp at h
  | some c =>
    rw [hm] at h
    have hne : truncate s L ≠ [] := by
      intro hx
      rw [hx] at hm
      simp at hm
    have hc : c ∈ truncate s L := by
      have h1 := List.getLast?_eq_getLast (truncate s L) hne
      rw [hm] at h1
      simp only [Option.some.injEq] at h1
      exact h1 ▸ List.getLast_mem _
    have hlt : c < 0x80 := by
      unfold isSpaceDot isSpaceChar at h
      simp only [Bool.or_eq_true, beq_iff_eq] at h
      omega
    exact ⟨c, mem_truncate_ascii s L c hc hlt, h⟩

/-! ## validName case analysis -/

theorem validName_cases (f : Bytes) (intr R : RStr) (L : Nat) :
    validName f intr R L = md5Hex f ∨
      (intr ≠ [] ∧ valid intr = true ∧
        ((byteLen intr ≤ L ∧ validName f intr R L = intr) ∨
         (L < byteLen intr ∧ validName f intr R L = truncate intr L))) := by
  unfold validName
  split_ifs with h1 h2 h3
  · right
    exact ⟨h1.2, h2, Or.inr ⟨by omega, rfl⟩⟩
  · right
    exact ⟨h1.2, h2, Or.inl ⟨by omega, rfl⟩⟩
  · exact Or.inl rfl
  · exact Or.inl rfl

theorem validName_reject (f : Bytes) (intr R : RStr) (L : Nat)
    (h : intr = R ∨ intr = [] ∨ valid intr = false) :
    validName f intr R L = md5Hex f := by
  unfold validName
  rcases h with h | h | h
  · rw [if_neg (by simp [h])]
  · rw [if_neg (by simp [h])]
  · split_ifs with h1 h2
    · rw [h] at h2
      exact absurd h2 (by simp)
    · rw [h] at h2
      exact absurd h2 (by simp)
    · rfl
    · rfl

theorem validName_accept (f : Bytes) (intr R : RStr) (L : Nat)
    (h1 : intr ≠ R) (h2 : intr ≠ []) (h3 : valid intr = true)
    (h4 : byteLen intr ≤ L) : validName f intr R L = intr := by
  unfold validName
  rw [if_pos ⟨h1, h2⟩, if_pos h3, if_neg (by omega)]

/-! ## Termination of the clean loop for the empty replacement -/

theorem dropWhile_ne_imp_lt (p : Nat → Bool) (l : List Nat)
    (h : l.dropWhile p ≠ l) : (l.dropWhile p).length < l.length := by
  induction l with
  | nil => simp [List.dropWhile] at h
  | cons c rest ih =>
    rw [List.dropWhile_cons]
    by_cases hc : p c = true
    · rw [if_pos hc]
      have := List.Sublist.length_le (List.dropWhile_sublist (l := rest) p)
      simp only [List.length_cons]
      omega
    · rw [if_neg hc]
      rw [List.dropWhile_cons, if_neg hc] at h
      exact absurd rfl h

theorem collapseSepsGo_length_le (fuel : Nat) (s : RStr) :
    (collapseSepsGo fuel s).length ≤ s.length := by
  induction fuel generalizing s with
  | zero => simp [collapseSepsGo]
  | succ fuel ih =>
    match s with
    | [] => simp [collapseSepsGo]
    | d :: rest =>
      rw [collapseSepsGo]
      match hsep : sepClass d with
      | none =>
        simp only [List.length_cons]
        have := ih rest
        omega
      | some k =>
        dsimp only
        have hd := List.Sublist.length_le
          (List.dropWhile_sublist (l := rest) (fun d => sepClass d == some k))
        split
        · simp only [List.length_cons]
          have := ih rest
          omega
        · simp only [List.length_cons]
          have := ih (rest.dropWhile (fun d => sepClass d == some k))
          omega

theorem collapseSeps_length_le (s : RStr) :
    (collapseSeps s).length ≤ s.length := collapseSepsGo_length_le s.length s

theorem collapseSepsGo_lt_of_ne (fuel : Nat) (s : RStr)
    (h : collapseSepsGo fuel s ≠ s) :
    (collapseSepsGo fuel s).length < s.length := by
  induction fuel generalizing s with
  | zero =>
    match s with
    | [] => exact absurd rfl h
    | d :: rest => simp [collapseSepsGo]
  | succ fuel ih =>
    match s with
    | [] => exact absurd rfl h
    | d :: rest =>
      rw [collapseSepsGo] at h ⊢
      match hsep : sepClass d with
      | none =>
        rw [hsep] at h
        simp only [List.length_cons]
        have hne : collapseSepsGo fuel rest ≠ rest := by
          intro hx
          exact h (by rw [hx])
        have := ih rest hne
        omega
      | some k =>
        rw [hsep] at h
        dsimp only at h ⊢
        by_cases hlen : ((rest.dropWhile
            (fun d => sepClass d == some k)).length == rest.length) = true
        · rw [if_pos hlen] at h ⊢
          simp only [List.length_cons]
          have hne : collapseSepsGo fuel rest ≠ rest := by
            intro hx
            exact h (by rw [hx])
          have := ih rest hne
          omega
        · rw [if_neg hlen] at h ⊢
          simp only [List.length_cons]
          have hlt : (rest.dropWhile (fun d => sepClass d == some k)).length <
              rest.length := by
            have hle := List.Sublist.length_le (List.dropWhile_sublist
              (l := rest) (fun d => sepClass d == some k))
            rcases Nat.lt_or_ge (rest.dropWhile
              (fun d => sepClass d == some k)).length rest.length with hx | hx
            · exact hx
            · exfalso
              apply hlen
              simp only [beq_iff_eq]
              omega
          have := collapseSepsGo_length_le fuel
            (rest.dropWhile (fun d => sepClass d == some k))
          omega

theorem collapseSeps_lt_of_ne (s : RStr) (h : collapseSeps s ≠ s) :
    (collapseSeps s).length < s.length := collapseSepsGo_lt_of_ne s.length s h

theorem rightSD_nil_length (s : RStr) :
    (rightSDReplaceAll [] s).length ≤ s.length ∧
      (rightSDReplaceAll [] s ≠ s →
        (rightSDReplaceAll [] s).length < s.length) := by
  unfold rightSDReplaceAll
  split_ifs with h1
  · exact ⟨Nat.le_refl _, fun h => absurd rfl h⟩
  · rw [expandTemplate_nil, List.append_nil]
    have hne : s.reverse.dropWhile isSpaceDot ≠ s.reverse := by
      intro hx
      apply h1
      unfold trimRightSD
      rw [hx]
      simp
    have := dropWhile_ne_imp_lt isSpaceDot s.reverse hne
    unfold trimRightSD
    simp only [List.length_reverse] at this ⊢
    exact ⟨by omega, fun _ => by omega⟩

theorem leftdot_length (s : RStr) :
    (leftdotReplaceAll s).length ≤ s.length ∧
      (leftdotReplaceAll s ≠ s → (leftdotReplaceAll s).length < s.length) := by
  match s with
  | [] => exact ⟨Nat.le_refl _, fun h => absurd rfl h⟩
  | d :: rest =>
    rw [leftdotReplaceAll]
    by_cases hd : isDot d = true
    · rw [if_pos hd]
      have hd46 : d = 46 := by simpa [isDot] using hd
      subst hd46
      by_cases hne : rest.dropWhile isDot = rest
      · rw [hne]
        exact ⟨Nat.le_refl _, fun h => absurd rfl h⟩
      · have := dropWhile_ne_imp_lt isDot rest hne
        simp only [List.length_cons]
        exact ⟨by omega, fun _ => by omega⟩
    · rw [if_neg hd]
      exact ⟨Nat.le_refl _, fun h => absurd rfl h⟩

theorem cleanBody_nil_lt (s : RStr) (h : cleanBody [] s ≠ s) :
    (cleanBody [] s).length < s.length := by
  unfold cleanBody at h ⊢
  simp only [List.isEmpty_nil, if_pos] at h ⊢
  by_cases hc1 : collapseSeps s = s
  · rw [hc1] at h ⊢
    by_cases hc2 : rightSDReplaceAll [] s = s
    · rw [hc2] at h ⊢
      exact (leftdot_length s).2 h
    · have h2 := (rightSD_nil_length s).2 hc2
      have h3 := (leftdot_length (rightSDReplaceAll [] s)).1
      omega
  · have hlt := collapseSeps_lt_of_ne s hc1
    have h2 := (rightSD_nil_length (collapseSeps s)).1
    have h3 := (leftdot_length (rightSDReplaceAll [] (collapseSeps s))).1
    omega

theorem cleanIter_fix (R : RStr) (n : Nat) (s : RStr)
    (h : cleanBody R s = s) : cleanIter R n s = s := by
  induction n with
  | zero => rfl
  | succ n ih =>
    rw [cleanIter, h]
    exact ih

theorem cleanIter_succ_comm (R : RStr) (n : Nat) (s : RStr) :
    cleanIter R (n + 1) s = cleanBody R (cleanIter R n s) := by
  induction n generalizing s with
  | zero => rfl
  | succ n ih =>
    rw [cleanIter, ih, cleanIter]

theorem cleanIter_nil_stable (s : RStr) (n : Nat) (hn : s.length ≤ n) :
    cleanBody [] (cleanIter [] n s) = cleanIter [] n s := by
  induction n generalizing s with
  | zero =>
    have hs : s = [] := List.length_eq_zero.mp (by omega)
    subst hs
    show cleanBody [] [] = []
    rfl
  | succ n ih =>
    by_cases h : cleanBody [] s = s
    · rw [cleanIter_fix [] (n + 1) s h, h]
    · rw [cleanIter]
      exact ih (cleanBody [] s) (by
        have := cleanBody_nil_lt s h
        omega)

/-! ## Composed pipeline invariants -/

theorem mem_namePipeline (f : Bytes) (R : RStr) (c : Nat) (hRd : ¬36 ∈ R)
    (h : c ∈ namePipeline f R) :
    c ∈ R ∨ c = 46 ∨
      (isCntrl c = false ∧ isInvChar c = false ∧ ValidScalar c) := by
  unfold namePipeline at h
  rcases mem_leftdotReplaceAll _ c h with h46 | h1
  · exact Or.inr (Or.inl h46)
  rcases mem_rightSDReplaceAll _ _ c hRd h1 with hR | h2
  · exact Or.inl hR
  rcases mem_invCharReplaceAll _ _ c hRd h2 with hR | ⟨h3, hinv⟩
  · exact Or.inl hR
  rcases mem_cntrlReplaceAll _ _ c hRd h3 with hR | ⟨h4, hctl⟩
  · exact Or.inl hR
  rcases mem_unescapeString _ c h4 with h5 | hent
  · rcases mem_toValidUTF8Aux _ _ _ c h5 with hR | ⟨hsc, _⟩
    · exact Or.inl hR
    · exact Or.inr (Or.inr ⟨hctl, hinv, hsc⟩)
  · refine Or.inr (Or.inr ⟨hctl, hinv, ?_⟩)
    simp only [List.mem_cons, List.mem_singleton, List.not_mem_nil,
      or_false] at hent
    unfold ValidScalar
    rcases hent with h | h | h | h | h <;> subst h <;> left <;> omega

theorem mem_cleanPre (f : Bytes) (R : RStr) (c : Nat) (hRd : ¬36 ∈ R)
    (h : c ∈ cleanPre f R) :
    c ∈ R ∨ (isUniCtrl c = false ∧ isInvChar c = false ∧ ValidScalar c ∧
      (isUniSpace c = true → c = 32)) := by
  simp only [cleanPre] at h
  split at h
  · simp at h
  rcases mem_invCharReplaceAll _ _ c hRd h with hR | ⟨h1, hinv⟩
  · exact Or.inl hR
  rcases mem_unicodeSpaceReplaceAll _ c h1 with h32 | ⟨h2, hsp⟩
  · subst h32
    exact Or.inr ⟨by decide, hinv, Or.inl (by omega), fun _ => rfl⟩
  rcases mem_unicodeControlReplaceAll _ _ c hRd h2 with hR | ⟨h3, hctl⟩
  · exact Or.inl hR
  rcases mem_unescapeString _ c h3 with h4 | hent
  · rcases mem_toValidUTF8Aux _ _ _ c h4 with hR | ⟨hsc, _⟩
    · exact Or.inl hR
    · exact Or.inr ⟨hctl, hinv, hsc, fun hx => absurd hx (by simp [hsp])⟩
  · refine Or.inr ⟨hctl, hinv, ?_, fun hx => absurd hx (by simp [hsp])⟩
    simp only [List.mem_cons, List.mem_singleton, List.not_mem_nil,
      or_false] at hent
    unfold ValidScalar
    rcases hent with h | h | h | h | h <;> subst h <;> left <;> omega

theorem mem_cleanBody (R s : RStr) (c : Nat) (hRd : ¬36 ∈ R)
    (h : c ∈ cleanBody R s) :
    c ∈ s ∨ c ∈ R ∨ c ∈ [32, 95, 45, 43, 46, 33] := by
  unfold cleanBody at h
  rcases mem_leftdotReplaceAll _ c h with h46 | h1
  · subst h46
    simp
  rcases mem_rightSDReplaceAll _ _ c hRd h1 with hR | h2
  · exact Or.inr (Or.inl hR)
  by_cases hRe : R.isEmpty = true
  · rw [if_pos hRe] at h2
    rcases mem_collapseSeps _ c h2 with h3 | hconst
    · exact Or.inl h3
    · exact Or.inr (Or.inr hconst)
  · rw [if_neg hRe] at h2
    rcases mem_collapseReplAux _ _ _ c h2 with hR | h3
    · exact Or.inr (Or.inl hR)
    rcases mem_collapseSeps _ c h3 with h4 | hconst
    · exact Or.inl h4
    · exact Or.inr (Or.inr hconst)

theorem mem_cleanIter (R : RStr) (n : Nat) (s : RStr) (c : Nat)
    (hRd : ¬36 ∈ R) (h : c ∈ cleanIter R n s) :
    c ∈ s ∨ c ∈ R ∨ c ∈ [32, 95, 45, 43, 46, 33] := by
  induction n generalizing s with
  | zero => exact Or.inl h
  | succ n ih =>
    rw [cleanIter] at h
    rcases ih (cleanBody R s) h with h1 | h2
    · exact mem_cleanBody R s c hRd h1
    · exact Or.inr h2

theorem mem_cleanFinal (f : Bytes) (c : Nat) (h : c ∈ cleanFinal f) :
    isUniCtrl c = false ∧ isInvChar c = false ∧ ValidScalar c ∧
      (isUniSpace c = true → c = 32) := by
  simp only [cleanFinal] at h
  split at h
  · simp at h
  · rcases mem_cleanIter _ _ _ c (List.not_mem_nil 36) h with h1 | h2
    · rcases mem_cleanPre f [] c (List.not_mem_nil 36) h1 with hR | hgood
      · simp at hR
      · exact hgood
    · simp only [List.not_mem_nil, false_or] at h2
      simp only [List.mem_cons, List.mem_singleton, List.not_mem_nil,
        or_false] at h2
      rcases h2 with h | h | h | h | h | h <;> subst h <;>
        exact ⟨by decide, by decide, Or.inl (by omega), by decide⟩

/-- For the default replacement, every character of the `name` pipeline
result is a valid scalar free of control and reserved characters. -/
theorem mem_namePipeline_default (f : Bytes) (c : Nat)
    (h : c ∈ namePipeline f []) :
    isCntrl c = false ∧ isInvChar c = false ∧ ValidScalar c := by
  rcases mem_namePipeline f [] c (List.not_mem_nil 36) h with hR | h46 | hgood
  · simp at hR
  · subst h46
    exact ⟨by decide, by decide, Or.inl (by omega)⟩
  · exact hgood

/-! ## Tail-shape of the pipelines -/

theorem endsSpaceDot_namePipeline (f : Bytes) (R : RStr)
    (hR : endsSpaceDot R = false) (hRd : ¬36 ∈ R) :
    endsSpaceDot (namePipeline f R) = false := by
  unfold namePipeline
  exact endsSpaceDot_leftdot _ (endsSpaceDot_rightSD R _ hR hRd)

theorem endsSpaceDot_cleanBody (R s : RStr) (hR : endsSpaceDot R = false)
    (hRd : ¬36 ∈ R) :
    endsSpaceDot (cleanBody R s) = false := by
  unfold cleanBody
  exact endsSpaceDot_leftdot _ (endsSpaceDot_rightSD R _ hR hRd)

/-! ## Idempotence infrastructure -/

theorem clean_eq_validName (f : Bytes) (L : Nat) :
    clean f L = validName f (cleanFinal f) [] L := rfl

theorem namePipeline_fix (x : Bytes)
    (hs : ∀ c ∈ namePipeline x [], ValidScalar c)
    (hctl : ∀ c ∈ namePipeline x [], isCntrl c = false)
    (hinv : ∀ c ∈ namePipeline x [], isInvChar c = false)
    (hamp : ¬38 ∈ namePipeline x [])
    (hend : endsSpaceDot (namePipeline x []) = false) :
    namePipeline (utf8Encode (namePipeline x [])) [] = namePipeline x [] := by
  have hld : ∃ t, namePipeline x [] = leftdotReplaceAll t := by
    unfold namePipeline
    exact ⟨_, rfl⟩
  conv_lhs => rw [namePipeline]
  rw [show toValidUTF8 (utf8Encode (namePipeline x [])) [] =
      namePipeline x [] from toValidUTF8_encode _ hs []]
  rw [unescapeString_eq_self _ hamp]
  rw [cntrlReplaceAll_eq_self [] _ hctl]
  rw [invCharReplaceAll_eq_self [] _ hinv]
  rw [rightSD_eq_self [] _ hend]
  obtain ⟨t, ht⟩ := hld
  rw [ht, leftdot_idem]

theorem cleanPre_fix (j : RStr) (hj : j ≠ [])
    (hs : ∀ c ∈ j, ValidScalar c)
    (hctl : ∀ c ∈ j, isUniCtrl c = false)
    (hinv : ∀ c ∈ j, isInvChar c = false)
    (hsp : ∀ c ∈ j, isUniSpace c = true → c = 32)
    (hamp : ¬38 ∈ j) :
    cleanPre (utf8Encode j) [] = j := by
  unfold cleanPre
  rw [show toValidUTF8 (utf8Encode j) [] = j from toValidUTF8_encode _ hs []]
  rw [if_neg hj]
  rw [unescapeString_eq_self _ hamp]
  rw [unicodeControlReplaceAll_eq_self [] _ hctl]
  rw [unicodeSpaceReplaceAll_eq_self _ hsp]
  rw [invCharReplaceAll_eq_self [] _ hinv]

theorem cleanFinal_fix (x : Bytes) (hne : cleanFinal x ≠ []) :
    cleanBody [] (cleanFinal x) = cleanFinal x := by
  simp only [cleanFinal] at hne ⊢
  by_cases hpre : cleanPre x [] = []
  · rw [if_pos hpre] at hne
    exact absurd rfl hne
  · rw [if_neg hpre] at hne ⊢
    have hst := cleanIter_nil_stable (cleanPre x []) _ (Nat.le_refl _)
    rw [cleanIter_succ_comm, hst]
    exact hst

theorem clean_idem_core (x : Bytes) (hne : cleanFinal x ≠ [])
    (hv : valid (cleanFinal x) = true)
    (hbl : byteLen (cleanFinal x) ≤ 240)
    (hamp : ¬38 ∈ cleanFinal x) :
    clean (utf8Encode (clean x 240)) 240 = clean x 240 := by
  have hout : clean x 240 = cleanFinal x := by
    rw [clean_eq_validName]
    exact validName_accept _ _ _ _ hne hne hv hbl
  rw [hout]
  have hmem := mem_cleanFinal x
  have hpre : cleanPre (utf8Encode (cleanFinal x)) [] = cleanFinal x :=
    cleanPre_fix _ hne (fun c hc => (hmem c hc).2.2.1)
      (fun c hc => (hmem c hc).1) (fun c hc => (hmem c hc).2.1)
      (fun c hc => (hmem c hc).2.2.2) hamp
  have hfix := cleanFinal_fix x hne
  have hfin : cleanFinal (utf8Encode (cleanFinal x)) = cleanFinal x := by
    have hgen : ∀ (y : Bytes) (j : RStr), cleanPre y [] = j → j ≠ [] →
        cleanBody [] j = j → cleanFinal y = j := by
      intro y j hp hj hf
      unfold cleanFinal
      simp only [hp]
      rw [if_neg hj]
      exact cleanIter_fix [] _ _ hf
    exact hgen _ _ hpre hne hfix
  rw [clean_eq_validName, hfin]
  exact validName_accept _ _ _ _ hne hne hv hbl

/-! ## Remaining glue -/

theorem name_eq_validName (x : Bytes) (R : RStr) (L : Nat) :
    name x R L = validName x (namePipeline x R) R L := rfl

theorem cleanWith_eq_validName (x : Bytes) (R : RStr) (L n : Nat) :
    cleanWith x R L n = validName x
      (if cleanPre x R = [] then [] else cleanIter R n (cleanPre x R))
      R L := rfl

theorem valid_eq_false_of_reserved (s : RStr) (hb : byteLen s ≤ 4)
    (hm : asciiLower s ∈ invalidNamesMap (byteLen s)) : valid s = false := by
  unfold valid
  by_cases he : s.isEmpty = true
  · rw [if_pos he]
  · rw [if_neg he, if_pos (by omega)]
    rw [Bool.not_eq_false', List.any_eq_true]
    exact ⟨asciiLower s, hm, by simp⟩

theorem asciiLower_md5Hex (m : Bytes) : asciiLower (md5Hex m) = md5Hex m := by
  unfold asciiLower
  have hmap : (md5Hex m).map (fun c => if 65 ≤ c ∧ c ≤ 90 then c + 32 else c)
      = (md5Hex m).map id := List.map_congr_left fun c hc => by
    have := mem_md5Hex m c hc
    rw [if_neg (by omega)]
    rfl
  rw [hmap, List.map_id]

theorem isUniCtrl_of_isCntrl (c : Nat) (h : isCntrl c = true) :
    isUniCtrl c = true := by
  unfold isCntrl at h
  unfold isUniCtrl isCc
  simp only [Bool.or_eq_true, Bool.and_eq_true, decide_eq_true_eq,
    beq_iff_eq] at h ⊢
  left
  omega

theorem isCntrl_big (c : Nat) (h : 0x80 ≤ c) : isCntrl c = false := by
  unfold isCntrl
  simp only [Bool.or_eq_false_iff, decide_eq_false_iff_not, beq_eq_false_iff_ne]
  omega

theorem isInvChar_big (c : Nat) (h : 0x80 ≤ c) : isInvChar c = false := by
  unfold isInvChar
  simp only [Bool.or_eq_false_iff, beq_eq_false_iff_ne]
  omega

theorem mem_name_good (x : Bytes) (R : RStr) (L : Nat) (c : Nat)
    (hR : validOptStr R = none) (hRd : ¬36 ∈ R) (h : c ∈ name x R L) :
    isCntrl c = false ∧ isInvChar c = false := by
  have hRctl : ∀ d ∈ R, isCntrl d = false := by
    unfold validOptStr at hR
    split_ifs at hR with h1 h2
    exact fun d hd => by
      simpa using List.any_eq_false.mp (by simpa using h1) d hd
  have hRinv : ∀ d ∈ R, isInvChar d = false := by
    unfold validOptStr at hR
    split_ifs at hR with h1 h2
    simp only [Bool.or_eq_true] at h2
    have h2a : ¬R.any isInvChar = true := fun hx => h2 (Or.inl hx)
    exact fun d hd => by
      simpa using List.any_eq_false.mp (by simpa using h2a) d hd
  have hintr : ∀ d ∈ namePipeline x R,
      isCntrl d = false ∧ isInvChar d = false := by
    intro d hd
    rcases mem_namePipeline x R d hRd hd with hmr | h46 | ⟨hc1, hc2, _⟩
    · exact ⟨hRctl d hmr, hRinv d hmr⟩
    · subst h46
      exact ⟨by decide, by decide⟩
    · exact ⟨hc1, hc2⟩
  rw [name_eq_validName] at h
  rcases validName_cases x (namePipeline x R) R L with hmd | ⟨_, _, hacc⟩
  · rw [hmd] at h
    have := mem_md5Hex x c h
    constructor
    · unfold isCntrl
      simp only [Bool.or_eq_false_iff, decide_eq_false_iff_not,
        beq_eq_false_iff_ne]
      omega
    · unfold isInvChar
      simp only [Bool.or_eq_false_iff, beq_eq_false_iff_ne]
      omega
  · rcases hacc with ⟨_, heq⟩ | ⟨_, heq⟩
    · rw [heq] at h
      exact hintr c h
    · rw [heq] at h
      rcases Nat.lt_or_ge c 0x80 with hlt | hge
      · exact hintr c (mem_truncate_ascii _ _ _ h hlt)
      · exact ⟨isCntrl_big c hge, isInvChar_big c hge⟩

theorem mem_cleanWith_good (x : Bytes) (R : RStr) (L n : Nat) (c : Nat)
    (hR : validOptStr R = none) (hRd : ¬36 ∈ R)
    (h : c ∈ cleanWith x R L n) :
    isCntrl c = false ∧ isInvChar c = false := by
  have hRctl : ∀ d ∈ R, isCntrl d = false := by
    unfold validOptStr at hR
    split_ifs at hR with h1 h2
    exact fun d hd => by
      simpa using List.any_eq_false.mp (by simpa using h1) d hd
  have hRinv : ∀ d ∈ R, isInvChar d = false := by
    unfold validOptStr at hR
    split_ifs at hR with h1 h2
    simp only [Bool.or_eq_true] at h2
    have h2a : ¬R.any isInvChar = true := fun hx => h2 (Or.inl hx)
    exact fun d hd => by
      simpa using List.any_eq_false.mp (by simpa using h2a) d hd
  have hintr : ∀ d ∈ (if cleanPre x R = [] then []
      else cleanIter R n (cleanPre x R)),
      isCntrl d = false ∧ isInvChar d = false := by
    intro d hd
    split at hd
    · simp at hd
    · rcases mem_cleanIter R n _ d hRd hd with h1 | h2 | hconst
      · rcases mem_cleanPre x R d hRd h1 with hmr | ⟨hu, hi, _, _⟩
        · exact ⟨hRctl d hmr, hRinv d hmr⟩
        · refine ⟨?_, hi⟩
          match hm : isCntrl d with
          | false => rfl
          | true => exact absurd (isUniCtrl_of_isCntrl d hm) (by simp [hu])
      · exact ⟨hRctl d h2, hRinv d h2⟩
      · simp only [List.mem_cons, List.mem_singleton, List.not_mem_nil,
          or_false] at hconst
        rcases hconst with h | h | h | h | h | h <;> subst h <;>
          exact ⟨by decide, by decide⟩
  rw [cleanWith_eq_validName] at h
  rcases validName_cases x _ R L with hmd | ⟨_, _, hacc⟩
  · rw [hmd] at h
    have := mem_md5Hex x c h
    constructor
    · unfold isCntrl
      simp only [Bool.or_eq_false_iff, decide_eq_false_iff_not,
        beq_eq_false_iff_ne]
      omega
    · unfold isInvChar
      simp only [Bool.or_eq_false_iff, beq_eq_false_iff_ne]
      omega
  · rcases hacc with ⟨_, heq⟩ | ⟨_, heq⟩
    · rw [heq] at h
      exact hintr c h
    · rw [heq] at h
      rcases Nat.lt_or_ge c 0x80 with hlt | hge
      · exact hintr c (mem_truncate_ascii _ _ _ h hlt)
      · exact ⟨isCntrl_big c hge, isInvChar_big c hge⟩

/-! ## validName output facts -/

theorem length_le_byteLen (s : RStr) : s.length ≤ byteLen s := by
  induction s with
  | nil => simp [byteLen]
  | cons c rest ih =>
    rw [byteLen_cons]
    have h1 : 1 ≤ utf8Len c := by
      unfold utf8Len
      split_ifs <;> omega
    simp only [List.length_cons]
    omega

theorem byteLen_validName_le (f : Bytes) (intr R : RStr) (L : Nat)
    (hL : 32 ≤ L) : byteLen (validName f intr R L) ≤ L := by
  rcases validName_cases f intr R L with hmd | ⟨_, _, hacc⟩
  · rw [hmd, byteLen_md5Hex]
    omega
  · rcases hacc with ⟨hle, heq⟩ | ⟨_, heq⟩
    · rw [heq]
      exact hle
    · rw [heq]
      exact byteLen_truncate_le intr L

theorem validName_ne_nil (f : Bytes) (intr R : RStr) (L : Nat)
    (hL : 4 ≤ L) (hsc : ∀ c ∈ intr, ValidScalar c) :
    validName f intr R L ≠ [] := by
  rcases validName_cases f intr R L with hmd | ⟨hne, _, hacc⟩
  · rw [hmd]
    exact md5Hex_ne_nil f
  · rcases hacc with ⟨_, heq⟩ | ⟨_, heq⟩
    · rw [heq]
      exact hne
    · rw [heq]
      exact truncate_ne_nil intr L hL hne hsc

theorem validName_not_reserved (f : Bytes) (intr R : RStr) (L : Nat)
    (hnt : byteLen intr ≤ L) :
    ∀ res ∈ reservedNames, asciiLower (validName f intr R L) ≠ res := by
  intro res hres
  obtain ⟨hres4, _⟩ := reservedNames_spec res hres
  rcases validName_cases f intr R L with hmd | ⟨_, hv, hacc⟩
  · rw [hmd, asciiLower_md5Hex]
    intro heq
    have hlen := congrArg List.length heq
    rw [md5Hex_length] at hlen
    have := length_le_byteLen res
    omega
  · rcases hacc with ⟨_, heq⟩ | ⟨hgt, _⟩
    · rw [heq]
      exact valid_not_reserved intr hv res hres
    · omega

theorem validName_endsSpaceDot (f : Bytes) (intr R : RStr) (L : Nat)
    (hend : endsSpaceDot intr = false) (hnt : byteLen intr ≤ L) :
    endsSpaceDot (validName f intr R L) = false := by
  rcases validName_cases f intr R L with hmd | ⟨_, _, hacc⟩
  · rw [hmd]
    exact endsSpaceDot_md5Hex f
  · rcases hacc with ⟨_, heq⟩ | ⟨hgt, _⟩
    · rw [heq]
      exact hend
    · omega

theorem scalars_namePipeline (x : Bytes) (R : RStr)
    (hR : ∀ c ∈ R, ValidScalar c) (hRd : ¬36 ∈ R) :
    ∀ c ∈ namePipeline x R, ValidScalar c := by
  intro c hc
  rcases mem_namePipeline x R c hRd hc with hr | h46 | ⟨_, _, hs⟩
  · exact hR c hr
  · subst h46
    exact Or.inl (by omega)
  · exact hs

theorem scalars_cleanFin (x : Bytes) (R : RStr) (n : Nat)
    (hR : ∀ c ∈ R, ValidScalar c) (hRd : ¬36 ∈ R) :
    ∀ c ∈ (if cleanPre x R = [] then [] else cleanIter R n (cleanPre x R)),
      ValidScalar c := by
  intro c hc
  split at hc
  · simp at hc
  · rcases mem_cleanIter R n _ c hRd hc with h1 | h2 | hconst
    · rcases mem_cleanPre x R c hRd h1 with hr | ⟨_, _, hs, _⟩
      · exact hR c hr
      · exact hs
    · exact hR c h2
    · simp only [List.mem_cons, List.mem_singleton, List.not_mem_nil,
        or_false] at hconst
      rcases hconst with h | h | h | h | h | h <;> subst h <;>
        exact Or.inl (by omega)

/-! ## Claim C8 -/

/-- **C8.**  The documented concrete scenarios hold: with the default
configuration, `Clean` of the documented example input (five dots,
`Hello`, a reserved-character run, a dash run, a backslash, a dot run,
`W|orld?` and a trailing `.!..`) returns `".Hello-.World.!"`; and the
instance with replacement `" "` and maxLength 6 is accepted by
`NewWithOpts` and its `Name(".....H<>e:l.!..")` returns `".H e l"`. -/
theorem c8_concrete_scenarios :
    clean (strBytes ".....Hello<>:/---\\....W|orld?.!..") 240 =
      strRunes ".Hello-.World.!" ∧
    NewWithOpts (strRunes " ") 6 = (⟨strRunes " ", 6⟩, none) ∧
    name (strBytes ".....H<>e:l.!..") (strRunes " ") 6 =
      strRunes ".H e l" := by
  refine ⟨by decide, by decide, by decide⟩

/-! ## Claim C7 -/

/-- **C7 counterexample.**  The replacement string `"a "` is accepted by
construction, yet on input `"x."` the fixpoint loop of `clean` never
stabilizes: the claimed bound (the initial count of collapsible
repeated-run positions, which is 0 for `"x."`, and in any reading at most
its length 2) is exceeded, and the iterates keep changing — each
iteration appends another copy via the right-trim stage (`"x."` becomes
`"xa "`, then `"xaa "`, `"xaaa "`, …). -/
theorem c7_counterexample :
    validOptStr (strRunes "a ") = none ∧
    cleanPre (strBytes "x.") (strRunes "a ") = strRunes "x." ∧
    cleanIter (strRunes "a ") 4 (strRunes "x.") ≠
      cleanIter (strRunes "a ") 3 (strRunes "x.") ∧
    cleanIter (strRunes "a ") 12 (strRunes "x.") ≠
      cleanIter (strRunes "a ") 11 (strRunes "x.") := by
  refine ⟨by decide, by decide, by decide, by decide⟩

/-- **C7 (amended).**  For the default (empty) replacement string,
`clean`'s fixpoint loop does reach a fixed point, within a number of
iterations bounded by the length of the loop's input string: iterating
the loop body `length + 1` times gives the same string as iterating it
`length` times (every changing iteration strictly shortens the string
when the replacement is empty). -/
theorem c7_amended_default_terminates (s : RStr) :
    cleanIter [] (s.length + 1) s = cleanIter [] s.length s := by
  rw [cleanIter_succ_comm]
  exact cleanIter_nil_stable s s.length (Nat.le_refl _)

/-! ## Claim C9 -/

/-- **C9.**  `NewWithOpts(replaceStr, maxLen)` returns an error exactly
when `replaceStr` contains a control character (the distinct
control-character error `ErrCntrl`), or contains a reserved path
character or a literal dot (the distinct invalid-characters error
`ErrInval`), or `maxLen > 255` (the length error `ErrLen`), checked in
that order; the three errors are pairwise distinct; in every error case
the object returned alongside the error is the default-configured one
(replacement `""`, maxLength 240), and on success the object carries the
requested options. -/
theorem c9_construction (R : RStr) (L : Nat) :
    ((NewWithOpts R L).2 = none ↔
      R.any isCntrl = false ∧ R.any isInvChar = false ∧
        R.any isDot = false ∧ L ≤ 255) ∧
    (R.any isCntrl = true →
      NewWithOpts R L = (⟨[], 240⟩, some SvachErr.ErrCntrl)) ∧
    (R.any isCntrl = false → (R.any isInvChar = true ∨ R.any isDot = true) →
      NewWithOpts R L = (⟨[], 240⟩, some SvachErr.ErrInval)) ∧
    (R.any isCntrl = false → R.any isInvChar = false → R.any isDot = false →
      255 < L → NewWithOpts R L = (⟨[], 240⟩, some SvachErr.ErrLen)) ∧
    (∀ e, (NewWithOpts R L).2 = some e →
      (NewWithOpts R L).1 = ⟨[], 240⟩) ∧
    ((NewWithOpts R L).2 = none → (NewWithOpts R L).1 = ⟨R, L⟩) ∧
    New = ⟨[], 240⟩ ∧
    SvachErr.ErrCntrl ≠ SvachErr.ErrInval ∧
    SvachErr.ErrCntrl ≠ SvachErr.ErrLen ∧
    SvachErr.ErrInval ≠ SvachErr.ErrLen := by
  have heq : NewWithOpts R L =
      (if R.any isCntrl then (⟨[], 240⟩, some SvachErr.ErrCntrl)
       else if R.any isInvChar || R.any isDot then
         (⟨[], 240⟩, some SvachErr.ErrInval)
       else if L > 255 then (⟨[], 240⟩, some SvachErr.ErrLen)
       else (⟨R, L⟩, none)) := by
    unfold NewWithOpts validOptStr
    by_cases h1 : R.any isCntrl = true
    · simp [h1, iMaxLen]
    · by_cases h2 : (R.any isInvChar || R.any isDot) = true
      · simp [h1, h2, iMaxLen]
      · by_cases h3 : L > 255
        · simp [h1, h2, h3, iMaxLen]
        · simp [h1, h2, h3, iMaxLen]
  rw [heq]
  clear heq
  rcases hc : R.any isCntrl with _ | _ <;>
    rcases hi : R.any isInvChar with _ | _ <;>
      rcases hd : R.any isDot with _ | _ <;>
        by_cases hL : 255 < L <;>
          simp only [hL, ite_true, ite_false, if_true, if_false] <;>
            simp_all [New, iMaxLen]

/-- **C9 witness.**  Concrete uses of `c9_construction`: a tab character
in the replacement yields the control-character error with the default
object, and `"?"` yields the invalid-characters error (the documented
example). -/
theorem c9_construction_witness :
    NewWithOpts [9] 6 = (⟨[], 240⟩, some SvachErr.ErrCntrl) ∧
    NewWithOpts (strRunes "?") 6 = (⟨[], 240⟩, some SvachErr.ErrInval) :=
  ⟨(c9_construction [9] 6).2.1 (by decide),
   (c9_construction (strRunes "?") 6).2.2.1 (by decide) (by decide)⟩
/-! ## Claim C1 -/

/-- **C1 counterexample.**  `NewWithOpts` accepts `maxLen = 0` (any value
up to 255 passes validation), yet with that configuration `Name("a")` and
`Clean("a")` truncate the valid intermediate string `"a"` to the empty
string: the totality guarantee "always returns a non-empty string" fails
for instances returned by `NewWithOpts`. -/
theorem c1_counterexample :
    (NewWithOpts [] 0).2 = none ∧
    name (strBytes "a") [] 0 = [] ∧
    clean (strBytes "a") 0 = [] := by decide

/-- **C1.**  Amended totality: non-emptiness is enforced by the final
validation layer for an arbitrary intermediate string of valid Unicode
scalars — whatever string the rewrite stages produce, including under
Go's `$`-template expansion of the replacement — whenever the configured
maximum length is at least 4 (so truncation cannot consume a whole UTF-8
rune budget down to nothing); consequently `name` with a `$`-free
valid-scalar replacement (where the stage model is exact) and the
default-configured `clean` (whose loop provably reaches its fixpoint)
return a non-empty string for every input, including the empty input and
invalid UTF-8.  For other accepted replacements `Clean` need not return
at all: its loop can run forever (see the C7 counterexample) and the
dynamically compiled pattern can reject the replacement. -/
theorem c1_amended_nonempty (x f : Bytes) (intr R : RStr) (L : Nat)
    (hL : 4 ≤ L) (hsc : ∀ c ∈ intr, ValidScalar c)
    (hR : ∀ c ∈ R, ValidScalar c) (hRd : ¬36 ∈ R) :
    validName f intr R L ≠ [] ∧
    name x R L ≠ [] ∧
    clean x L ≠ [] := by
  refine ⟨validName_ne_nil f intr R L hL hsc, ?_, ?_⟩
  · rw [name_eq_validName]
    exact validName_ne_nil _ _ _ _ hL (scalars_namePipeline x R hR hRd)
  · rw [clean_eq_validName]
    exact validName_ne_nil _ _ _ _ hL
      (fun c hc => (mem_cleanFinal x c hc).2.2.1)

/-- **C1 witness.**  The amended totality theorem applied to the default
configuration at the empty input. -/
theorem c1_amended_nonempty_witness :
    (4 ≤ 240 ∧ ∀ c ∈ ([] : RStr), ValidScalar c) ∧
    validName [] [] [] 240 ≠ [] ∧ name [] [] 240 ≠ [] ∧
    clean [] 240 ≠ [] :=
  ⟨⟨by decide, by simp⟩,
   c1_amended_nonempty [] [] [] [] 240 (by decide) (by simp) (by simp)
     (by simp)⟩

/-! ## Claim C2 -/

/-- **C2.**  Whenever validation rejects the intermediate string (it
equals the replacement string, is empty, or fails `valid`, i.e. is a
reserved name of byte length 1 to 4 up to ASCII lowercasing), `name`
and `cleanWith` return the 32-character lowercase hexadecimal md5
digest of the original raw input bytes; concretely, the documented
examples hold: the reserved-character input maps to
`3e4bde3cb1e4c9cfa2db74bbc536d5e2` and `Clean("")` returns the digest
of the empty byte sequence, never the empty string. -/
theorem c2_reject_md5 (x : Bytes) (R : RStr) (L n : Nat) :
    (namePipeline x R = R ∨ namePipeline x R = [] ∨
        valid (namePipeline x R) = false →
      name x R L = md5Hex x) ∧
    ((if cleanPre x R = [] then [] else cleanIter R n (cleanPre x R)) = R ∨
     (if cleanPre x R = [] then [] else cleanIter R n (cleanPre x R)) = [] ∨
     valid (if cleanPre x R = [] then []
            else cleanIter R n (cleanPre x R)) = false →
      cleanWith x R L n = md5Hex x) ∧
    name (strBytes "<>:\"/\\|?*") [] 240 =
      strRunes "3e4bde3cb1e4c9cfa2db74bbc536d5e2" ∧
    clean (strBytes "") 240 = md5Hex (strBytes "") ∧
    clean [] 240 = strRunes "d41d8cd98f00b204e9800998ecf8427e" ∧
    clean [] 240 ≠ [] := by
  refine ⟨?_, ?_, by decide, by decide, by decide, by decide⟩
  · intro h
    rw [name_eq_validName]
    exact validName_reject _ _ _ _ h
  · intro h
    rw [cleanWith_eq_validName]
    exact validName_reject _ _ _ _ h

/-- **C2 witness.**  The rejection equations applied to the concrete
input `"?"`, whose intermediate string is empty under the default
replacement. -/
theorem c2_reject_md5_witness :
    name (strBytes "?") [] 240 = md5Hex (strBytes "?") ∧
    cleanWith (strBytes "?") [] 240 2 = md5Hex (strBytes "?") :=
  ⟨(c2_reject_md5 (strBytes "?") [] 240 2).1 (Or.inr (Or.inl (by decide))),
   (c2_reject_md5 (strBytes "?") [] 240 2).2.1
     (Or.inr (Or.inl (by decide)))⟩

/-! ## Claim C3 -/

/-- **C3 counterexample.**  `NewWithOpts` accepts `maxLen = 6`, yet the
md5 fallback is 32 bytes long regardless of the configured maximum, so
the length bound fails for small configured maxima. -/
theorem c3_counterexample :
    (NewWithOpts [] 6).2 = none ∧
    6 < byteLen (name [] [] 6) ∧
    6 < byteLen (clean [] 6) := by decide

/-- **C3.**  Amended length bound: whenever the configured maximum
length is at least 32 (the byte length of the md5 fallback), the final
validation layer bounds its output by that maximum for an arbitrary
intermediate string — whatever string the rewrite stages produce,
including under Go's `$`-template expansion of the replacement — so the
output of `name` with any replacement, and of the default-configured
`clean` (whose loop provably reaches its fixpoint), is at most the
maximum; the default 240 qualifies. -/
theorem c3_amended_length_bound (x f : Bytes) (intr R : RStr) (L : Nat)
    (hL : 32 ≤ L) :
    byteLen (validName f intr R L) ≤ L ∧
    byteLen (name x R L) ≤ L ∧
    byteLen (clean x L) ≤ L := by
  refine ⟨byteLen_validName_le f intr R L hL, ?_, ?_⟩
  · rw [name_eq_validName]
    exact byteLen_validName_le _ _ _ _ hL
  · rw [clean_eq_validName]
    exact byteLen_validName_le _ _ _ _ hL

/-- **C3 witness.**  The amended length bound applied to a concrete
input with the default configuration. -/
theorem c3_amended_length_bound_witness :
    32 ≤ 240 ∧
    byteLen (validName (strBytes "hello") (strRunes "hello") [] 240) ≤ 240 ∧
    byteLen (name (strBytes "hello") [] 240) ≤ 240 ∧
    byteLen (clean (strBytes "hello") 240) ≤ 240 :=
  ⟨by decide,
   c3_amended_length_bound (strBytes "hello") (strBytes "hello")
     (strRunes "hello") [] 240 (by decide)⟩

/-! ## Claim C5 -/

/-- **C5 counterexample.**  Truncation is applied after the reserved-name
check and its result is not re-validated: with accepted configuration
`maxLen = 3`, the valid intermediate string `"conx"` is truncated to
`"con"`, which is case-insensitively reserved. -/
theorem c5_counterexample :
    (NewWithOpts [] 3).2 = none ∧
    name (strBytes "conx") [] 3 = strRunes "con" ∧
    asciiLower (strRunes "con") ∈ reservedNames := by decide

/-- **C5.**  Amended reserved-name exclusion: whenever the intermediate
string fits in the configured maximum (so no truncation occurs), the
output of `name` and of `cleanWith` is never case-insensitively equal to
a reserved name (`.`, `..`, `con`, `prn`, `aux`, `nul`, `com1`-`com9`,
`lpt1`-`lpt9`). -/
theorem c5_amended_no_reserved (x : Bytes) (R : RStr) (L n : Nat)
    (h1 : byteLen (namePipeline x R) ≤ L)
    (h2 : byteLen (if cleanPre x R = [] then []
                   else cleanIter R n (cleanPre x R)) ≤ L) :
    (∀ res ∈ reservedNames, asciiLower (name x R L) ≠ res) ∧
    (∀ res ∈ reservedNames, asciiLower (cleanWith x R L n) ≠ res) := by
  constructor
  · rw [name_eq_validName]
    exact validName_not_reserved _ _ _ _ h1
  · rw [cleanWith_eq_validName]
    exact validName_not_reserved _ _ _ _ h2

/-- **C5 witness.**  The amended reserved-name exclusion applied to a
concrete input with the default configuration. -/
theorem c5_amended_no_reserved_witness :
    byteLen (namePipeline (strBytes "hi") []) ≤ 240 ∧
    byteLen (if cleanPre (strBytes "hi") [] = [] then []
             else cleanIter [] 1 (cleanPre (strBytes "hi") [])) ≤ 240 ∧
    ((∀ res ∈ reservedNames, asciiLower (name (strBytes "hi") [] 240) ≠ res) ∧
     (∀ res ∈ reservedNames,
        asciiLower (cleanWith (strBytes "hi") [] 240 1) ≠ res)) :=
  ⟨by decide, by decide,
   c5_amended_no_reserved (strBytes "hi") [] 240 1 (by decide) (by decide)⟩

/-! ## Claim C6 -/

/-- **C6 counterexample.**  `NewWithOpts` accepts a replacement string
that itself ends in a space, and the trailing-run stage substitutes that
replacement for the trailing run, so the output can end in a space even
though it is not the md5 fallback. -/
theorem c6_counterexample :
    (NewWithOpts (strRunes " ") 6).2 = none ∧
    name (strBytes "ab ") (strRunes " ") 6 = strRunes "ab " ∧
    endsSpaceDot (strRunes "ab ") = true := by decide

/-- **C6.**  Amended trailing-character exclusion: whenever the
replacement string does not itself end in whitespace or a dot, contains
no `$` (so Go inserts it literally rather than expanding a template that
could write the matched trailing run back), and the intermediate string
fits in the configured maximum (so no truncation occurs), the output of
`name` never ends in a whitespace character or `.`; the same holds for
the default-configured `clean`, whose loop provably reaches its
fixpoint.  The md5 fallback is pure hex and satisfies this as well. -/
theorem c6_amended_no_trailing (x : Bytes) (R : RStr) (L : Nat)
    (hR : endsSpaceDot R = false) (hRd : ¬36 ∈ R)
    (h1 : byteLen (namePipeline x R) ≤ L)
    (h2 : byteLen (cleanFinal x) ≤ L) :
    endsSpaceDot (name x R L) = false ∧
    endsSpaceDot (clean x L) = false := by
  constructor
  · rw [name_eq_validName]
    exact validName_endsSpaceDot _ _ _ _
      (endsSpaceDot_namePipeline x R hR hRd) h1
  · rw [clean_eq_validName]
    refine validName_endsSpaceDot _ _ _ _ ?_ h2
    simp only [cleanFinal]
    split_ifs with hp
    · rfl
    · rw [cleanIter_succ_comm]
      exact endsSpaceDot_cleanBody [] _ rfl (List.not_mem_nil 36)

/-- **C6 witness.**  The amended trailing-character exclusion applied
to an input with a trailing space, under the default configuration. -/
theorem c6_amended_no_trailing_witness :
    endsSpaceDot ([] : RStr) = false ∧
    byteLen (namePipeline (strBytes "ab ") []) ≤ 240 ∧
    byteLen (cleanFinal (strBytes "ab ")) ≤ 240 ∧
    (endsSpaceDot (name (strBytes "ab ") [] 240) = false ∧
     endsSpaceDot (clean (strBytes "ab ") 240) = false) :=
  ⟨by decide, by decide, by decide,
   c6_amended_no_trailing (strBytes "ab ") [] 240 (by decide) (by simp)
     (by decide) (by decide)⟩

/-! ## Claim C4 -/

/-- **C4 counterexample.**  Idempotence fails even when no call falls
back to the hash: `"&amp;amp;"` normalises (HTML-unescapes) to the
valid, accepted name `"&amp;"`, but normalising that output unescapes
it again to `"&"`. -/
theorem c4_counterexample :
    namePipeline (strBytes "&amp;amp;") [] = strRunes "&amp;" ∧
    valid (strRunes "&amp;") = true ∧
    name (strBytes "&amp;amp;") [] 240 = strRunes "&amp;" ∧
    name (strBytes "&amp;") [] 240 = strRunes "&" ∧
    strRunes "&amp;" ≠ strRunes "&" := by decide

/-- **C4.**  Amended idempotence for the default configuration: if the
intermediate string is accepted (non-empty, valid, within the length
bound) and contains no ampersand (so re-unescaping cannot change it),
then re-running `name` on the output returns the output unchanged, and
likewise for `clean`. -/
theorem c4_amended_idem (x : Bytes) :
    (¬38 ∈ namePipeline x [] → namePipeline x [] ≠ [] →
      valid (namePipeline x []) = true →
      byteLen (namePipeline x []) ≤ 240 →
      name (utf8Encode (name x [] 240)) [] 240 = name x [] 240) ∧
    (¬38 ∈ cleanFinal x → cleanFinal x ≠ [] →
      valid (cleanFinal x) = true → byteLen (cleanFinal x) ≤ 240 →
      clean (utf8Encode (clean x 240)) 240 = clean x 240) := by
  constructor
  · intro hamp hne hv hbl
    have hout : name x [] 240 = namePipeline x [] := by
      rw [name_eq_validName]
      exact validName_accept _ _ _ _ hne hne hv hbl
    rw [hout]
    have hgood := mem_namePipeline_default x
    have hfix : namePipeline (utf8Encode (namePipeline x [])) [] =
        namePipeline x [] :=
      namePipeline_fix x (fun c hc => (hgood c hc).2.2)
        (fun c hc => (hgood c hc).1) (fun c hc => (hgood c hc).2.1) hamp
        (endsSpaceDot_namePipeline x [] rfl (List.not_mem_nil 36))
    rw [name_eq_validName, hfix]
    exact validName_accept _ _ _ _ hne hne hv hbl
  · intro hamp hne hv hbl
    exact clean_idem_core x hne hv hbl hamp

/-- **C4 witness.**  The amended idempotence applied to the input
`"hello"` under the default configuration. -/
theorem c4_amended_idem_witness :
    name (utf8Encode (name (strBytes "hello") [] 240)) [] 240 =
      name (strBytes "hello") [] 240 ∧
    clean (utf8Encode (clean (strBytes "hello") 240)) 240 =
      clean (strBytes "hello") 240 :=
  ⟨(c4_amended_idem (strBytes "hello")).1 (by decide) (by decide)
     (by decide) (by decide),
   (c4_amended_idem (strBytes "hello")).2 (by decide) (by decide)
     (by decide) (by decide)⟩

/-! ## Claim C10 -/

/-- **C10 counterexample.**  The replacement `"$0"` is accepted by
construction (`$` and `0` are neither control nor reserved characters
nor dots), but as a `ReplaceAllString` template it expands to the
matched text itself, so the reserved-character stage writes the matched
run back: `Name("a<b")` under that instance returns `"a<b"`, which
contains the reserved character `<`. -/
theorem c10_counterexample :
    (NewWithOpts (strRunes "$0") 240).2 = none ∧
    name (strBytes "a<b") (strRunes "$0") 240 = strRunes "a<b" ∧
    60 ∈ strRunes "a<b" ∧ isInvChar 60 = true := by decide

/-- **C10.**  Amended character exclusion: for every replacement string
accepted by construction (`validOptStr` returns no error, which holds
for `New` and successful `NewWithOpts`) that contains no `$` (so Go
inserts it literally rather than expanding a template that could write
matched characters back) and every input, the output of `name`, and
every iterate of `clean`'s loop passed through final validation
(`cleanWith`, covering `Clean` whenever its loop exits), contains no
ASCII control character (0x00-0x1F, 0x7F) and none of the reserved
characters, on both the normalised path and the md5-fallback path. -/
theorem c10_output_chars (x : Bytes) (R : RStr) (L n c : Nat)
    (hR : validOptStr R = none) (hRd : ¬36 ∈ R) :
    (c ∈ name x R L → isCntrl c = false ∧ isInvChar c = false) ∧
    (c ∈ cleanWith x R L n → isCntrl c = false ∧ isInvChar c = false) :=
  ⟨mem_name_good x R L c hR hRd, mem_cleanWith_good x R L n c hR hRd⟩

/-- **C10 witness.**  The character invariant applied to a concrete
input containing a reserved character, under the default replacement. -/
theorem c10_output_chars_witness :
    validOptStr [] = none ∧
    (63 ∈ name (strBytes "a?b") [] 240 →
      isCntrl 63 = false ∧ isInvChar 63 = false) ∧
    (63 ∈ cleanWith (strBytes "a?b") [] 240 1 →
      isCntrl 63 = false ∧ isInvChar 63 = false) :=
  ⟨by decide,
   c10_output_chars (strBytes "a?b") [] 240 1 63 (by decide) (by simp)⟩

end Svach
